import Mathlib

/-!
Verification development for `blog_pipeline.py`, a one-module blog
synchronisation pipeline.  The script mirrors Markdown documents from a
source tree into a Hugo content tree, mirrors media files into a flat
images folder, rewrites Obsidian-style image links and YouTube references
inside freshly copied documents, and prunes destination entries whose
source counterpart disappeared.

The embedding works on `List Char` ("Str" below) for all text, models the
two destination trees as association lists keyed by relative path
(documents) and by basename (images), and models every regex of the source
as an explicit scanner with the exact backtracking semantics of the Python
pattern it embeds.  All recursion is structural or fuelled so that every
definition evaluates inside the kernel (`decide`).
-/

namespace BlogPipeline

/-- Text is modelled as a list of characters. -/
abbrev Str := List Char

/-- Relative paths are lists of path components. -/
abbrev Path := List Str

/-- Boolean prefix test on lists with decidable equality
(used in place of regex literal matching). -/
def listPre {α : Type} [DecidableEq α] : List α → List α → Bool
  | [], _ => true
  | _ :: _, [] => false
  | a :: as, b :: bs => decide (a = b) && listPre as bs

/-- Boolean suffix test on lists. -/
def listSuf {α : Type} [DecidableEq α] (a b : List α) : Bool :=
  listPre a.reverse b.reverse

/-- Python `\s` for the character sets appearing in the script's regexes
(ASCII whitespace). -/
def isWSChar (c : Char) : Bool :=
  c = ' ' || c = '\t' || c = '\n' || c = '\r' || c = '\x0b' || c = '\x0c'

/-- Drop trailing characters satisfying `p`. -/
def dropTrailWhile (p : Char → Bool) (s : Str) : Str :=
  (s.reverse.dropWhile p).reverse

/-- Python `str.strip()`: remove leading and trailing whitespace. -/
def pyStrip (s : Str) : Str :=
  dropTrailWhile isWSChar (s.dropWhile isWSChar)

/-- The character set of Python `str.strip('<>')`. -/
def isAngle (c : Char) : Bool := c = '<' || c = '>'

/-- Python `str.strip('<>')`: remove leading and trailing angle brackets. -/
def stripAngles (s : Str) : Str :=
  dropTrailWhile isAngle (s.dropWhile isAngle)

/-- Character class `[^&\s]` of `r'[?&]v=([^&\s]+)'` and of the
`watch?v=` alternative of the bare-URL pattern. -/
def vParamChar (c : Char) : Bool := !(c = '&') && !(isWSChar c)

/-- Character class `[^?&\s/]` of the `youtu.be/` and `/embed/` capture
groups in `extract_youtube_id`. -/
def idSegChar (c : Char) : Bool :=
  !(c = '?') && !(c = '&') && !(isWSChar c) && !(c = '/')

/-- `re.search(r'[?&]v=([^&\s]+)', s)`: scan for the first position where
`[?&]v=` is followed by a nonempty run of `[^&\s]` characters and return
that (greedy, maximal) run. -/
def searchVEq : Str → Option Str
  | [] => none
  | c :: cs =>
    if c = '?' || c = '&' then
      match cs with
      | 'v' :: '=' :: rest =>
        let run := rest.takeWhile vParamChar
        if run = [] then searchVEq cs else some run
      | _ => searchVEq cs
    else searchVEq cs

/-- `re.search(lit ++ cls+, s)` for a literal `lit` followed by a nonempty
greedy run of characters satisfying `cls`; returns the captured run of the
first position where the whole pattern matches. -/
def searchLitRun (lit : Str) (cls : Char → Bool) : Str → Option Str
  | [] => none
  | c :: cs =>
    if listPre lit (c :: cs) then
      let run := ((c :: cs).drop lit.length).takeWhile cls
      if run = [] then searchLitRun lit cls cs else some run
    else searchLitRun lit cls cs

/-- `extract_youtube_id(url)`: empty url gives None; otherwise strip
whitespace and surrounding angle brackets, then try, in order, the
`[?&]v=`, `youtu.be/` and `youtube.com/embed/` capture patterns. -/
def extract_youtube_id (url : Str) : Option Str :=
  if url = [] then none
  else
    let u := stripAngles (pyStrip url)
    match searchVEq u with
    | some v => some v
    | none =>
      match searchLitRun "youtu.be/".data idSegChar u with
      | some v => some v
      | none => searchLitRun "youtube.com/embed/".data idSegChar u

/-- The Hugo shortcode literal produced by the f-string
`f"{{{{< youtube {vid} >}}}}"`. -/
def shortcode (v : Str) : Str :=
  "\x7b\x7b< youtube ".data ++ v ++ " >\x7d\x7d".data

/-- Case-insensitive character comparison (the `(?i)` flag of the iframe
pattern). -/
def ciEq (a b : Char) : Bool := decide (a.toLower = b.toLower)

/-- Case-insensitive literal prefix test. -/
def ciPre : Str → Str → Bool
  | [], _ => true
  | _ :: _, [] => false
  | p :: ps, c :: cs => ciEq p c && ciPre ps cs

/-- Index of the first case-insensitive occurrence of `pat` in `s`
(the lazy `.*?</iframe>` search). -/
def findCI (pat : Str) : Str → Option Nat
  | [] => if ciPre pat [] then some 0 else none
  | c :: cs =>
    if ciPre pat (c :: cs) then some 0
    else (findCI pat cs).map (fun i => i + 1)

/-- Continuation of the iframe pattern after the literal `src=`:
`(?P<quote>["\'])(?P<src>[^"\']+)(?P=quote)[^>]*>.*?</iframe>`.
Returns the number of characters consumed after `src=` and the `src`
capture. -/
def iframeCont (s : Str) : Option (Nat × Str) :=
  match s with
  | [] => none
  | q :: u =>
    if q = '"' || q = '\'' then
      let C := u.takeWhile (fun c => !(c = '"') && !(c = '\''))
      if C = [] then none
      else
        match u.drop C.length with
        | q2 :: v =>
          if q2 = q then
            let D := v.takeWhile (fun c => !(c = '>'))
            match v.drop D.length with
            | '>' :: body =>
              match findCI "</iframe>".data body with
              | some k => some (1 + C.length + 1 + D.length + 1 + k + 9, C)
              | none => none
            | _ => none
          else none
        | [] => none
    else none

/-- Backtracking search for the `[^>]*\s+src=` part of the iframe pattern:
`t` is the text following `<iframe`, `R` its maximal `[^>]*` run, and `j`
counts candidate offsets for the literal `src=`, tried from the largest
(`[^>]*` is greedy) down to 1 (at least one whitespace must precede).
Returns total characters consumed from `t` and the `src` capture. -/
def iframeSearchJ (t R : Str) : Nat → Option (Nat × Str)
  | 0 => none
  | jp + 1 =>
    let j := jp + 1
    if j < R.length && isWSChar (R.getD (j - 1) ' ') && ciPre "src=".data (t.drop j) then
      match iframeCont (t.drop (j + 4)) with
      | some (m, C) => some (j + 4 + m, C)
      | none => iframeSearchJ t R jp
    else iframeSearchJ t R jp

/-- Match of the full iframe pattern
`(?is)<iframe[^>]*\s+src=(["\'])([^"\']+)\1[^>]*>.*?</iframe>` at the head
of `s`: total length of the match and the `src` capture. -/
def matchIframe (s : Str) : Option (Nat × Str) :=
  if ciPre "<iframe".data s then
    let t := s.drop 7
    let R := t.takeWhile (fun c => !(c = '>'))
    match iframeSearchJ t R R.length with
    | some (m, C) => some (7 + m, C)
    | none => none
  else none

/-- `iframe_repl`: replace a matched iframe with a shortcode when
`extract_youtube_id(src.strip())` finds an id, else keep the match. -/
def matchIframeRepl (s : Str) : Option (Nat × Str) :=
  match matchIframe s with
  | some (n, C) =>
    some (n, match extract_youtube_id (pyStrip C) with
             | some v => shortcode v
             | none => s.take n)
  | none => none

/-- `https?://[^\)]+` followed by `\)`: returns the length of the url
(including the scheme) when the text after `](` matches. -/
def parseHttpUrl (w : Str) : Option Nat :=
  if listPre "https://".data w then
    let run := (w.drop 8).takeWhile (fun c => !(c = ')'))
    if run = [] then none
    else
      match w.drop (8 + run.length) with
      | ')' :: _ => some (8 + run.length)
      | _ => none
  else if listPre "http://".data w then
    let run := (w.drop 7).takeWhile (fun c => !(c = ')'))
    if run = [] then none
    else
      match w.drop (7 + run.length) with
      | ')' :: _ => some (7 + run.length)
      | _ => none
  else none

/-- Lazy `.*?\]\((https?://[^\)]+)\)` search: starting after `[`, find the
shortest dot-run (which may not contain a newline) whose continuation
completes the pattern.  Returns the dot-run length and the url length. -/
def mdLazy : Str → Option (Nat × Nat)
  | [] => none
  | ']' :: '(' :: w =>
    (match parseHttpUrl w with
     | some ulen => some (0, ulen)
     | none => (mdLazy ('(' :: w)).map (fun p => (p.1 + 1, p.2)))
  | c :: cs =>
    if c = '\n' then none
    else (mdLazy cs).map (fun p => (p.1 + 1, p.2))

/-- `md_link_repl` applied to a match of `!\[.*?\]\((https?://[^\)]+)\)`
at the head of `s`. -/
def matchMdImage (s : Str) : Option (Nat × Str) :=
  match s with
  | '!' :: '[' :: rest =>
    match mdLazy rest with
    | some (k, ulen) =>
      let url := (rest.drop (k + 2)).take ulen
      let n := 2 + k + 2 + ulen + 1
      some (n, match extract_youtube_id (pyStrip url) with
               | some v => shortcode v
               | none => s.take n)
    | none => none
  | _ => none

/-- `md_link_repl` applied to a match of `\[.*?\]\((https?://[^\)]+)\)`
at the head of `s`. -/
def matchMdLink (s : Str) : Option (Nat × Str) :=
  match s with
  | '[' :: rest =>
    match mdLazy rest with
    | some (k, ulen) =>
      let url := (rest.drop (k + 2)).take ulen
      let n := 1 + k + 2 + ulen + 1
      some (n, match extract_youtube_id (pyStrip url) with
               | some v => shortcode v
               | none => s.take n)
    | none => none
  | _ => none

/-- Fuelled engine of `re.sub` for patterns that cannot match the empty
string: at each position try the matcher; on a match emit its replacement
and continue after the match, otherwise keep one character and move on.
`max n 1` only serves termination; every matcher below consumes at least
one character. -/
def subGenF (m : Str → Option (Nat × Str)) : Nat → Str → Str
  | 0, s => s
  | _ + 1, [] => []
  | fuel + 1, c :: cs =>
    match m (c :: cs) with
    | some (n, repl) => repl ++ subGenF m fuel ((c :: cs).drop (max n 1))
    | none => c :: subGenF m fuel cs

/-- `re.sub` driver with enough fuel for the whole text. -/
def subGen (m : Str → Option (Nat × Str)) (s : Str) : Str :=
  subGenF m s.length s

/-- `>?[ \t]*$` at the end of a line of the bare-URL pattern. -/
def tailOkBare (u : Str) : Bool :=
  let u2 := match u with
    | '>' :: r => r
    | _ => u
  u2.all (fun c => c = ' ' || c = '\t')

/-- Backtracking over the greedy `[^&\s]+` run of the `watch?v=`
alternative: try lengths from `l` down to 1 until `>?[ \t]*$` accepts the
remainder. -/
def altWatchSearch (rest : Str) : Nat → Option Nat
  | 0 => none
  | l + 1 =>
    if tailOkBare (rest.drop (l + 1)) then some (l + 1)
    else altWatchSearch rest l

/-- Alternative `youtube\.com/watch\?v=[^&\s]+` of the bare-URL pattern,
including the line-tail check. -/
def altWatch (h : Str) : Option Nat :=
  if listPre "youtube.com/watch?v=".data h then
    let rest := h.drop 20
    let mx := (rest.takeWhile vParamChar).length
    (altWatchSearch rest mx).map (fun l => 20 + l)
  else none

/-- Alternative `youtu\.be/[^>\s]+` of the bare-URL pattern. -/
def altShort (h : Str) : Option Nat :=
  if listPre "youtu.be/".data h then
    let run := (h.drop 9).takeWhile (fun c => !(c = '>') && !(isWSChar c))
    if run = [] then none
    else if tailOkBare (h.drop (9 + run.length)) then some (9 + run.length)
    else none
  else none

/-- Alternative `youtube\.com/embed/[^>\s]+` of the bare-URL pattern. -/
def altEmbed (h : Str) : Option Nat :=
  if listPre "youtube.com/embed/".data h then
    let run := (h.drop 18).takeWhile (fun c => !(c = '>') && !(isWSChar c))
    if run = [] then none
    else if tailOkBare (h.drop (18 + run.length)) then some (18 + run.length)
    else none
  else none

/-- The three host alternatives, tried in the order of the pattern. -/
def altAny (h : Str) : Option Nat :=
  match altWatch h with
  | some n => some n
  | none =>
    match altShort h with
    | some n => some n
    | none => altEmbed h

/-- Whole-line match of
`(?m)^[ \t]*<?(https?://(?:www\.)?(?:...))>?[ \t]*$`; returns group 1. -/
def bareMatchLine (line : Str) : Option Str :=
  let a := line.dropWhile (fun c => c = ' ' || c = '\t')
  let b := match a with
    | '<' :: r => r
    | _ => a
  let scheme : Option Nat :=
    if listPre "https://".data b then some 8
    else if listPre "http://".data b then some 7
    else none
  match scheme with
  | none => none
  | some sl =>
    let h0 := b.drop sl
    let hostLen : Option Nat :=
      if listPre "www.".data h0 then
        match altAny (h0.drop 4) with
        | some n => some (4 + n)
        | none => altAny h0
      else altAny h0
    match hostLen with
    | none => none
    | some hl => some (b.take (sl + hl))

/-- `bare_url_repl` applied to one line: when the whole line matches the
bare-URL pattern and an id is extracted, the whole line becomes the
shortcode; otherwise the line is unchanged. -/
def bareLineRepl (line : Str) : Str :=
  match bareMatchLine line with
  | none => line
  | some url =>
    match extract_youtube_id (stripAngles (pyStrip url)) with
    | some v => shortcode v
    | none => line

/-- Apply `bareLineRepl` to every newline-separated line. -/
def convertBareLinesF : Nat → Str → Str
  | 0, s => s
  | fuel + 1, s =>
    let line := s.takeWhile (fun c => !(c = '\n'))
    match s.drop line.length with
    | [] => bareLineRepl line
    | _ :: rest2 => bareLineRepl line ++ '\n' :: convertBareLinesF fuel rest2

/-- The `(?m)` bare-URL pass of `convert_youtube_embeds`. -/
def convertBareLines (s : Str) : Str :=
  convertBareLinesF (s.length + 1) s

/-- `convert_youtube_embeds(content)`: the four substitution passes in
their fixed order (iframe, markdown image, markdown link, bare URL per
line). -/
def convert_youtube_embeds (content : Str) : Str :=
  let c1 := subGen matchIframeRepl content
  let c2 := subGen matchMdImage c1
  let c3 := subGen matchMdLink c2
  convertBareLines c3

/-! ## The Obsidian image-link pattern and its replacement -/

/-- The extension alternation `(?:jpg|jpeg|png|gif|webp)` of
`IMAGE_LINK_PATTERN`. -/
def IMAGE_EXT_NAMES : List Str :=
  ["jpg".data, "jpeg".data, "png".data, "gif".data, "webp".data]

/-- The target group `[^)]+\.(?:jpg|jpeg|png|gif|webp)` immediately
followed by `\)` accepts exactly the nonempty `[^)]` runs that end in a
dot plus one of the extensions (case-insensitively, `re.IGNORECASE`) with
at least one character before that dot. -/
def has_image_ext (t : Str) : Bool :=
  IMAGE_EXT_NAMES.any (fun e =>
    listSuf ('.' :: e) (t.map Char.toLower) && decide (e.length + 1 < t.length))

/-- Match of `IMAGE_LINK_PATTERN`
`\[([^]]+)\]\(([^)]+\.(?:jpg|jpeg|png|gif|webp))\)` at the head of `s`:
returns (match length, alt text, target). -/
def matchImageLink : Str → Option (Nat × Str × Str)
  | [] => none
  | c :: cs =>
    if c = '[' then
      let alt := cs.takeWhile (fun x => !(x = ']'))
      if alt = [] then none
      else
        let rest := cs.drop alt.length
        if listPre "](".data rest then
          let w := rest.drop 2
          let tgt := w.takeWhile (fun x => !(x = ')'))
          if tgt = [] then none
          else if listPre ")".data (w.drop tgt.length) then
            if has_image_ext tgt then
              some (1 + alt.length + 2 + tgt.length + 1, alt, tgt)
            else none
          else none
        else none
    else none

/-- Python `image_ref.replace(" ", "%20")`. -/
def encodeSpaces : Str → Str
  | [] => []
  | c :: cs =>
    if c = ' ' then '%' :: '2' :: '0' :: encodeSpaces cs
    else c :: encodeSpaces cs

/-- One step of `os.path.basename`: restart after every `/`. -/
def baseStep (acc : Str) (c : Char) : Str :=
  if c = '/' then [] else acc ++ [c]

/-- `os.path.basename`: the part after the last `/`. -/
def baseNameOf (s : Str) : Str :=
  s.foldl baseStep []

/-! ## Filesystem model

Source and destination trees are association lists.  A source file has a
relative directory path, a name, an mtime and a content; the source also
records the set of relative directories that exist (used by the
`os.path.exists` checks of the prune phase).  The destination holds the
document files of the content root, the subdirectories created under it,
and the flat image folder.  Asset references inside documents are modelled
as plain file names resolved in the document's own source directory, which
is the layout the script's docstring documents ("located in the same
folder as the Markdown file"). -/

/-- A file under `SOURCE_POSTS_DIR`, in `os.walk` order. -/
structure SrcFile where
  dirs : Path
  name : Str
  mtime : Nat
  content : Str
deriving DecidableEq, Repr

/-- The source tree: its files in walk order and its directories. -/
structure SrcState where
  files : List SrcFile
  dirs : List Path
deriving DecidableEq, Repr

/-- A file under `DEST_CONTENT_DIR`. -/
structure DstFile where
  dirs : Path
  name : Str
  mtime : Nat
  content : Str
deriving DecidableEq, Repr

/-- A file in the flat `DEST_IMAGES_DIR`. -/
structure ImgFile where
  name : Str
  mtime : Nat
  content : Str
deriving DecidableEq, Repr

/-- The whole destination: content files, content subdirectories, images. -/
structure DstState where
  docs : List DstFile
  docDirs : List Path
  imgs : List ImgFile
deriving DecidableEq, Repr

/-- The log stream: one event per file operation. -/
inductive Ev where
  | copyDoc (p : Path) (n : Str)
  | writeDoc (p : Path) (n : Str)
  | procDoc (p : Path) (n : Str)
  | failDoc (p : Path) (n : Str)
  | copyImg (n : Str)
  | warnImg (ref : Str)
  | delDoc (p : Path) (n : Str)
  | delDir (d : Path)
  | delImg (n : Str)
deriving DecidableEq, Repr

/-- `shutil.copy2` / `os.remove` style operations `Ev` classifies. -/
def Ev.isCopy : Ev → Bool
  | .copyDoc _ _ => true
  | .copyImg _ => true
  | _ => false

/-- Deletion operations (`os.remove`, `shutil.rmtree`). -/
def Ev.isDelete : Ev → Bool
  | .delDoc _ _ => true
  | .delDir _ => true
  | .delImg _ => true
  | _ => false

/-- Key equality for destination documents (relative path). -/
def dstKeyEq (g : DstFile) (p : Path) (n : Str) : Bool :=
  decide (g.dirs = p) && decide (g.name = n)

/-- Find the destination document at a relative path. -/
def lookupDoc (ds : List DstFile) (p : Path) (n : Str) : Option DstFile :=
  ds.find? (fun g => dstKeyEq g p n)

/-- Write a destination document (replace in place or create). -/
def setDoc (ds : List DstFile) (p : Path) (n : Str) (mt : Nat) (c : Str) :
    List DstFile :=
  if ds.any (fun g => dstKeyEq g p n) then
    ds.map (fun g => if dstKeyEq g p n then ⟨g.dirs, g.name, mt, c⟩ else g)
  else ds ++ [⟨p, n, mt, c⟩]

/-- Find a destination image by basename. -/
def lookupImg (is : List ImgFile) (n : Str) : Option ImgFile :=
  is.find? (fun g => decide (g.name = n))

/-- Write a destination image (replace in place or create). -/
def setImg (is : List ImgFile) (n : Str) (mt : Nat) (c : Str) : List ImgFile :=
  if is.any (fun g => decide (g.name = n)) then
    is.map (fun g => if g.name = n then ⟨g.name, mt, c⟩ else g)
  else is ++ [⟨n, mt, c⟩]

/-- `file.lower().endswith(".md")`. -/
def isMdName (n : Str) : Bool :=
  listSuf ".md".data (n.map Char.toLower)

/-- Index structure of `os.path.splitext`: the extension (with its dot) of
a bare file name, empty when the name has none (leading dots are not an
extension). -/
def lastDotIdx : Str → Option Nat
  | [] => none
  | c :: cs =>
    match lastDotIdx cs with
    | some i => some (i + 1)
    | none => if c = '.' then some 0 else none

/-- `os.path.splitext(n)[1]` for a bare file name. -/
def extOf (n : Str) : Str :=
  match lastDotIdx n with
  | none => []
  | some i => if (n.take i).any (fun c => !(c = '.')) then n.drop i else []

/-- `IMAGE_EXTENSIONS = {'.jpg', '.jpeg', '.png', '.gif', '.webp'}`. -/
def IMAGE_EXTENSIONS : List Str :=
  [".jpg".data, ".jpeg".data, ".png".data, ".gif".data, ".webp".data]

/-- `os.path.splitext(file)[1].lower() in IMAGE_EXTENSIONS`. -/
def isImageName (n : Str) : Bool :=
  IMAGE_EXTENSIONS.any (fun e => decide (e = (extOf n).map Char.toLower))

/-- The relative path of a source file. -/
def SrcFile.rel (f : SrcFile) : Path := f.dirs ++ [f.name]

/-- The relative path of a destination document. -/
def DstFile.rel (g : DstFile) : Path := g.dirs ++ [g.name]

/-- `os.path.exists(os.path.join(SOURCE_POSTS_DIR, p))`: true when `p` is
a source file or a source directory. -/
def sourceExists (src : SrcState) (p : Path) : Bool :=
  src.dirs.any (fun d => decide (d = p)) ||
  src.files.any (fun f => decide (f.rel = p))

/-- The asset lookup of `repl`: the candidate source path is the
document's own source directory joined with the reference. -/
def findSrcFile (src : SrcState) (dd : Path) (ref : Str) : Option SrcFile :=
  src.files.find? (fun f => decide (f.dirs = dd) && decide (f.name = ref))

/-- The replacement function `repl` inside `process_markdown_file` for one
match: copy the referenced asset when it exists and is new or stale, warn
when it is missing, and in every case produce
`[altText](/images/basename(ref.replace(" ", "%20")))`. -/
def imageRepl (src : SrcState) (dd : Path) (imgs : List ImgFile)
    (alt ref : Str) : Str × List ImgFile × List Ev :=
  let out := '[' :: alt ++ "](/images/".data ++ baseNameOf (encodeSpaces ref) ++ [')']
  match findSrcFile src dd ref with
  | some f =>
    let dn := baseNameOf ref
    match lookupImg imgs dn with
    | none => (out, setImg imgs dn f.mtime f.content, [.copyImg dn])
    | some g =>
      if f.mtime > g.mtime then (out, setImg imgs dn f.mtime f.content, [.copyImg dn])
      else (out, imgs, [])
  | none => (out, imgs, [.warnImg ref])

/-- Fuelled `re.sub(IMAGE_LINK_PATTERN, repl, content)`, threading the
image folder state and the emitted events through the left-to-right scan
exactly as the side-effecting `repl` does. -/
def imageLinkSubF (src : SrcState) (dd : Path) :
    Nat → Str → List ImgFile → Str × List ImgFile × List Ev
  | 0, s, imgs => (s, imgs, [])
  | _ + 1, [], imgs => ([], imgs, [])
  | fuel + 1, c :: cs, imgs =>
    match matchImageLink (c :: cs) with
    | some (n, alt, tgt) =>
      let r1 := imageRepl src dd imgs alt tgt
      let r2 := imageLinkSubF src dd fuel ((c :: cs).drop (max n 1)) r1.2.1
      (r1.1 ++ r2.1, r2.2.1, r1.2.2 ++ r2.2.2)
    | none =>
      let r := imageLinkSubF src dd fuel cs imgs
      (c :: r.1, r.2.1, r.2.2)

/-- The image-link substitution over a whole document. -/
def image_link_sub (src : SrcState) (dd : Path) (s : Str)
    (imgs : List ImgFile) : Str × List ImgFile × List Ev :=
  imageLinkSubF src dd s.length s imgs

/-- The pure text projection of the image-link substitution (the produced
text does not depend on the image folder). -/
def imageLinkSubTextF (src : SrcState) (dd : Path) : Nat → Str → Str
  | 0, s => s
  | _ + 1, [] => []
  | fuel + 1, c :: cs =>
    match matchImageLink (c :: cs) with
    | some (n, alt, tgt) =>
      (imageRepl src dd [] alt tgt).1 ++
        imageLinkSubTextF src dd fuel ((c :: cs).drop (max n 1))
    | none => c :: imageLinkSubTextF src dd fuel cs

/-- Pure text result of the image-link pass. -/
def image_link_sub_text (src : SrcState) (dd : Path) (s : Str) : Str :=
  imageLinkSubTextF src dd s.length s

/-- The document content persisted by `process_markdown_file`: the text is
converted (YouTube pass) and substituted (image-link pass) in memory, but
written back only when the substitution result differs from the
*converted* text; otherwise the file keeps the content `shutil.copy2`
placed there. -/
def write_back_content (src : SrcState) (dd : Path) (c : Str) : Str :=
  let cc := convert_youtube_embeds c
  let nc := image_link_sub_text src dd cc
  if nc = cc then c else nc

/-- `process_markdown_file(dest_filepath)`: read the destination document,
convert YouTube embeds, substitute image links (copying assets), and write
the result back (with a fresh mtime `now`) only when it differs from the
converted text. -/
def process_markdown_file (src : SrcState) (now : Nat) (dd : Path) (n : Str)
    (st : DstState) : DstState × List Ev :=
  match lookupDoc st.docs dd n with
  | none => (st, [])
  | some fl =>
    let cc := convert_youtube_embeds fl.content
    let r := image_link_sub src dd cc st.imgs
    if r.1 = cc then (⟨st.docs, st.docDirs, r.2.1⟩, .procDoc dd n :: r.2.2)
    else
      (⟨setDoc st.docs dd n now r.1, st.docDirs, r.2.1⟩,
       .procDoc dd n :: r.2.2 ++ [.writeDoc dd n])

/-- The nonempty proper-or-full prefixes of a directory path: the chain of
directories `os.makedirs(..., exist_ok=True)` ensures. -/
def nePrefixes : Path → List Path
  | [] => []
  | a :: as => [a] :: (nePrefixes as).map (fun p => a :: p)

/-- `os.makedirs(dirname, exist_ok=True)` on the destination content root. -/
def addDirs (ds : List Path) (p : Path) : List Path :=
  (nePrefixes p).foldl
    (fun acc d => if acc.any (fun x => decide (x = d)) then acc else acc ++ [d]) ds

/-- Whether the markdown copy raises (the `except` branch); `noFail` is the
error-free run. -/
abbrev FailOracle := Path → Str → Bool

/-- An error-free run: no copy raises. -/
def noFail : FailOracle := fun _ _ => false

/-- One iteration of the walk loop in `sync_markdown_files`: for a `.md`
source file, ensure the destination directory chain, copy when absent or
stale (`copy2` keeps the source mtime), and on a successful fresh copy run
`process_markdown_file` on the destination copy. -/
def sync_markdown_step (env : FailOracle) (now : Nat) (src : SrcState)
    (st : DstState) (f : SrcFile) : DstState × List Ev :=
  if isMdName f.name then
    let st0 : DstState := ⟨st.docs, addDirs st.docDirs f.dirs, st.imgs⟩
    let stale : Bool :=
      match lookupDoc st0.docs f.dirs f.name with
      | none => true
      | some g => f.mtime > g.mtime
    if stale then
      if env f.dirs f.name then (st0, [.failDoc f.dirs f.name])
      else
        let st1 : DstState :=
          ⟨setDoc st0.docs f.dirs f.name f.mtime f.content, st0.docDirs, st0.imgs⟩
        let r := process_markdown_file src now f.dirs f.name st1
        (r.1, .copyDoc f.dirs f.name :: r.2)
    else (st0, [])
  else (st, [])

/-- Fold a per-file phase over the walk list, concatenating its log. -/
def foldPhase (step : DstState → SrcFile → DstState × List Ev) :
    List SrcFile → DstState → DstState × List Ev
  | [], st => (st, [])
  | f :: fs, st =>
    let r := step st f
    let r2 := foldPhase step fs r.1
    (r2.1, r.2 ++ r2.2)

/-- `sync_markdown_files()`. -/
def sync_markdown_files (env : FailOracle) (now : Nat) (src : SrcState)
    (st : DstState) : DstState × List Ev :=
  foldPhase (sync_markdown_step env now src) src.files st

/-- One iteration of the walk loop in `sync_image_files`: a source file
with an allowed extension is copied to the flat image folder under its
basename when absent or stale. -/
def sync_image_step (st : DstState) (f : SrcFile) : DstState × List Ev :=
  if isImageName f.name then
    let copy : Bool :=
      match lookupImg st.imgs f.name with
      | none => true
      | some g => f.mtime > g.mtime
    if copy then
      (⟨st.docs, st.docDirs, setImg st.imgs f.name f.mtime f.content⟩,
       [.copyImg f.name])
    else (st, [])
  else (st, [])

/-- `sync_image_files()`. -/
def sync_image_files (src : SrcState) (st : DstState) : DstState × List Ev :=
  foldPhase sync_image_step src.files st

/-- A destination entry lies inside a `shutil.rmtree`-removed subtree:
some destination directory with no source counterpart (the walk never
lists the root itself) is a prefix of its directory path. -/
def orphanUnder (src : SrcState) (dirsList : List Path) (p : Path) : Bool :=
  dirsList.any (fun a =>
    !(decide (a = ([] : Path))) && !(sourceExists src a) && listPre a p)

/-- `remove_deleted_markdown()`: delete `.md` destination files whose
relative path no longer exists in the source, then remove (recursively)
every destination directory with no source counterpart. -/
def remove_deleted_markdown (src : SrcState) (st : DstState) :
    DstState × List Ev :=
  let delFile : DstFile → Bool :=
    fun g => isMdName g.name && !(sourceExists src g.rel)
  let killedDirs := st.docDirs.filter
    (fun d => !(decide (d = ([] : Path))) && !(sourceExists src d))
  let docs1 := st.docs.filter
    (fun g => !(delFile g) && !(orphanUnder src st.docDirs g.dirs))
  let dirs1 := st.docDirs.filter (fun d => !(orphanUnder src st.docDirs d))
  (⟨docs1, dirs1, st.imgs⟩,
   (st.docs.filter delFile).map (fun g => .delDoc g.dirs g.name) ++
     killedDirs.map (fun d => .delDir d))

/-- The set of basenames of source files with an allowed media extension
(`source_images` in `remove_deleted_images`). -/
def sourceImages (src : SrcState) : List Str :=
  (src.files.filter (fun f => isImageName f.name)).map (fun f => f.name)

/-- `remove_deleted_images()`: delete every file of the flat image folder
whose name is not among the source media basenames. -/
def remove_deleted_images (src : SrcState) (st : DstState) :
    DstState × List Ev :=
  let keep : ImgFile → Bool :=
    fun g => (sourceImages src).any (fun n => decide (n = g.name))
  (⟨st.docs, st.docDirs, st.imgs.filter keep⟩,
   (st.imgs.filter (fun g => !(keep g))).map (fun g => .delImg g.name))

/-- `main()` on an existing source root: the four phases in their fixed
order. -/
def full_sync (env : FailOracle) (now : Nat) (src : SrcState)
    (st : DstState) : DstState × List Ev :=
  let s1 := sync_markdown_files env now src st
  let s2 := sync_image_files src s1.1
  let s3 := remove_deleted_markdown src s2.1
  let s4 := remove_deleted_images src s3.1
  (s4.1, s1.2 ++ s2.2 ++ s3.2 ++ s4.2)

/-- The destination state before the first run in the tests below. -/
def emptyDst : DstState := ⟨[], [], []⟩

/-! ## General lemmas about the text helpers -/

lemma encodeSpaces_append (a b : Str) :
    encodeSpaces (a ++ b) = encodeSpaces a ++ encodeSpaces b := by
  induction a with
  | nil => rfl
  | cons c cs ih =>
    simp only [List.cons_append, encodeSpaces]
    split <;> simp [ih]

lemma baseName_encode_aux (s acc : Str) :
    (encodeSpaces s).foldl baseStep (encodeSpaces acc)
      = encodeSpaces (s.foldl baseStep acc) := by
  induction s generalizing acc with
  | nil => rfl
  | cons c cs ih =>
    by_cases hsl : c = '/'
    · subst hsl
      have h1 : encodeSpaces ('/' :: cs) = '/' :: encodeSpaces cs := by
        simp [encodeSpaces]
      rw [h1]
      have h2 : baseStep (encodeSpaces acc) '/' = encodeSpaces ([] : Str) := by
        simp [baseStep, encodeSpaces]
      simp only [List.foldl_cons, h2, ih]
      simp [baseStep]
    · by_cases hsp : c = ' '
      · subst hsp
        have h1 : encodeSpaces (' ' :: cs) = '%' :: '2' :: '0' :: encodeSpaces cs := by
          simp [encodeSpaces]
        rw [h1]
        have h3 : baseStep (baseStep (baseStep (encodeSpaces acc) '%') '2') '0'
            = encodeSpaces (acc ++ [' ']) := by
          simp [baseStep, encodeSpaces_append, encodeSpaces]
        simp only [List.foldl_cons, h3, ih]
        simp [baseStep]
      · have h1 : encodeSpaces (c :: cs) = c :: encodeSpaces cs := by
          simp [encodeSpaces, hsp]
        rw [h1]
        have h3 : baseStep (encodeSpaces acc) c = encodeSpaces (acc ++ [c]) := by
          simp [baseStep, hsl, encodeSpaces_append, encodeSpaces, hsp]
        simp only [List.foldl_cons, h3, ih]
        simp [baseStep, hsl]

/-- Encoding spaces commutes with taking the basename, because the
encoding neither creates nor removes `/` characters. -/
lemma baseName_encode (s : Str) :
    baseNameOf (encodeSpaces s) = encodeSpaces (baseNameOf s) := by
  have := baseName_encode_aux s []
  simpa [baseNameOf, encodeSpaces] using this

/-- The text component produced by `imageRepl` does not depend on the
filesystem outcome. -/
lemma imageRepl_text (src : SrcState) (dd : Path) (imgs : List ImgFile)
    (alt ref : Str) :
    (imageRepl src dd imgs alt ref).1
      = '[' :: alt ++ "](/images/".data ++ baseNameOf (encodeSpaces ref) ++ [')'] := by
  unfold imageRepl
  rcases hf : findSrcFile src dd ref with _ | f
  · simp [hf]
  · simp only [hf]
    rcases hg : lookupImg imgs (baseNameOf ref) with _ | g
    · simp [hg]
    · simp only [hg]
      split <;> rfl

/-! ## Concrete fixtures used by several claims -/

/-- Literal case 1 of the video rewrite. -/
def ytCase1 : Str := "<iframe src=\"https://www.youtube.com/embed/ABC123\"></iframe>".data

/-- Literal case 2 of the video rewrite. -/
def ytCase2 : Str := "[Watch](https://youtu.be/XYZ789)".data

/-- Literal case 3 of the video rewrite. -/
def ytCase3 : Str := "![thumb](https://www.youtube.com/watch?v=QQQ111)".data

/-- Literal case 4 of the video rewrite. -/
def ytCase4 : Str := "https://youtu.be/ZZZ999".data

/-- A source tree with one document and its sibling asset `img25.jpg`. -/
def srcPage : SrcState :=
  ⟨[⟨[], "post.md".data, 5, "[Page 1](img25.jpg)".data⟩,
    ⟨[], "img25.jpg".data, 3, "JPGDATA".data⟩], []⟩

/-! ## Claim theorems (part 1) -/

/-- Claim C6: the video rewriter maps the four literal surface forms
(iframe embed, markdown link, markdown image, bare line) to their
shortcode, and each of the four forms carrying a URL from which no
YouTube id is extracted is left byte-for-byte unchanged. -/
theorem c6_video_rewrite_cases :
    convert_youtube_embeds ytCase1 = shortcode "ABC123".data
    ∧ convert_youtube_embeds ytCase2 = shortcode "XYZ789".data
    ∧ convert_youtube_embeds ytCase3 = shortcode "QQQ111".data
    ∧ convert_youtube_embeds ytCase4 = shortcode "ZZZ999".data
    ∧ convert_youtube_embeds "<iframe src=\"https://example.com/x\"></iframe>".data
        = "<iframe src=\"https://example.com/x\"></iframe>".data
    ∧ convert_youtube_embeds "[Watch](https://example.com/a)".data
        = "[Watch](https://example.com/a)".data
    ∧ convert_youtube_embeds "![thumb](https://example.com/b)".data
        = "![thumb](https://example.com/b)".data
    ∧ convert_youtube_embeds "https://youtu.be//abc".data
        = "https://youtu.be//abc".data := by
  decide

/-- A document on which `convert_youtube_embeds` is not idempotent: the
markdown-link pass rewrites the inner link into a shortcode whose id is
`src="https://youtube.com/embed/B"`, which completes the previously
unmatchable surrounding iframe; a second application then collapses the
whole text. -/
def ytNonIdem : Str :=
  "<iframe [a](https://q/?v=src=\"https://youtube.com/embed/B\") x</iframe>".data

/-- Claim C8 counterexample: `convert_youtube_embeds` is not idempotent;
on `ytNonIdem` a second application changes the text again. -/
theorem c8_counterexample :
    convert_youtube_embeds (convert_youtube_embeds ytNonIdem)
      ≠ convert_youtube_embeds ytNonIdem := by
  decide

/-- Claim C8 (amended): the rewriter is not idempotent on all inputs, but
it is on the four literal surface forms: their outputs are fixed points of
`convert_youtube_embeds`, and so is a plain shortcode. -/
theorem c8_amended_fixed_points :
    convert_youtube_embeds (convert_youtube_embeds ytCase1)
      = convert_youtube_embeds ytCase1
    ∧ convert_youtube_embeds (convert_youtube_embeds ytCase2)
      = convert_youtube_embeds ytCase2
    ∧ convert_youtube_embeds (convert_youtube_embeds ytCase3)
      = convert_youtube_embeds ytCase3
    ∧ convert_youtube_embeds (convert_youtube_embeds ytCase4)
      = convert_youtube_embeds ytCase4
    ∧ convert_youtube_embeds (shortcode "ABC123".data) = shortcode "ABC123".data := by
  decide

/-- Claim C5: every match of the image-link pattern is rewritten to
`[altText](/images/encodedBasename)` — single-bracket syntax, where
`encodedBasename` is the basename of the reference with each space
replaced by `%20` — and on `[Page 1](img25.jpg)` with `img25.jpg` present
alongside the document the output is `[Page 1](/images/img25.jpg)` and a
copy of `img25.jpg` lands in the destination media root. -/
theorem c5_link_rewrite_form :
    (∀ (src : SrcState) (dd : Path) (imgs : List ImgFile) (alt ref : Str),
      (imageRepl src dd imgs alt ref).1
        = '[' :: alt ++ "](/images/".data ++ encodeSpaces (baseNameOf ref) ++ [')'])
    ∧ (image_link_sub srcPage [] "[Page 1](img25.jpg)".data []).1
        = "[Page 1](/images/img25.jpg)".data
    ∧ ((image_link_sub srcPage [] "[Page 1](img25.jpg)".data []).2.1.map
        (fun g => g.name)) = ["img25.jpg".data] := by
  refine ⟨fun src dd imgs alt ref => ?_, by decide, by decide⟩
  rw [imageRepl_text, baseName_encode]

/-- Claim C4: when the candidate source asset of a matched image link does
not exist, no copy is performed and a warning is logged, yet the match is
still rewritten to the `[altText](/images/...)` form instead of being left
as the original reference. -/
theorem c4_missing_asset (src : SrcState) (dd : Path) (imgs : List ImgFile)
    (alt ref : Str) (h : findSrcFile src dd ref = none) :
    (imageRepl src dd imgs alt ref).1
      = '[' :: alt ++ "](/images/".data ++ baseNameOf (encodeSpaces ref) ++ [')']
    ∧ (imageRepl src dd imgs alt ref).2.1 = imgs
    ∧ (imageRepl src dd imgs alt ref).2.2 = [.warnImg ref] := by
  unfold imageRepl
  simp [h]

/-- Claim C4 witness: a concrete missing asset (`i.jpg` has no source
counterpart) is warned about, not copied, and still rewritten. -/
theorem c4_missing_asset_witness :
    (imageRepl (⟨[], []⟩ : SrcState) [] [] "alt".data "i.jpg".data).1
      = '[' :: "alt".data ++ "](/images/".data
          ++ baseNameOf (encodeSpaces "i.jpg".data) ++ [')']
    ∧ (imageRepl (⟨[], []⟩ : SrcState) [] [] "alt".data "i.jpg".data).2.1 = []
    ∧ (imageRepl (⟨[], []⟩ : SrcState) [] [] "alt".data "i.jpg".data).2.2
        = [.warnImg "i.jpg".data] :=
  c4_missing_asset ⟨[], []⟩ [] [] "alt".data "i.jpg".data (by decide)

/-- Claim C10: the image-link pattern requires a nonempty alt text and a
nonempty target, so `[](img25.jpg)` and `[x]()` match nothing: the text is
unchanged, the media state is untouched and no event (no resolution, no
copy) is produced — even with `img25.jpg` present in the source. -/
theorem c10_empty_segments :
    (∀ s : Str, match matchImageLink s with
      | none => True
      | some r => r.2.1 ≠ [] ∧ r.2.2 ≠ [])
    ∧ image_link_sub srcPage [] "[](img25.jpg)".data []
        = ("[](img25.jpg)".data, [], [])
    ∧ image_link_sub srcPage [] "[x]()".data [] = ("[x]()".data, [], []) := by
  refine ⟨fun s => ?_, by decide, by decide⟩
  cases hm : matchImageLink s with
  | none => trivial
  | some r =>
    obtain ⟨n, alt, tgt⟩ := r
    cases s with
    | nil => simp [matchImageLink] at hm
    | cons c cs =>
      simp only [matchImageLink] at hm
      split_ifs at hm with h1 h2 h3 h4 h5 h6
      simp only [Option.some.injEq, Prod.mk.injEq] at hm
      obtain ⟨-, h7, h8⟩ := hm
      subst h7; subst h8
      exact ⟨h2, h4⟩

/-! ## Lookup and update lemmas for the destination states -/

lemma dstKeyEq_iff (g : DstFile) (p : Path) (n : Str) :
    dstKeyEq g p n = true ↔ g.dirs = p ∧ g.name = n := by
  simp [dstKeyEq]

lemma lookupDoc_key {ds : List DstFile} {p : Path} {n : Str} {g : DstFile}
    (h : lookupDoc ds p n = some g) : g.dirs = p ∧ g.name = n := by
  have := List.find?_some h
  simpa [dstKeyEq] using this

lemma lookupImg_key {is : List ImgFile} {n : Str} {g : ImgFile}
    (h : lookupImg is n = some g) : g.name = n := by
  have := List.find?_some h
  simpa using this

lemma lookupDoc_mapSet (ds : List DstFile) (p : Path) (n : Str) (mt : Nat)
    (c : Str) (h : ds.any (fun g => dstKeyEq g p n) = true) :
    lookupDoc (ds.map (fun g => if dstKeyEq g p n then ⟨g.dirs, g.name, mt, c⟩ else g)) p n
      = some ⟨p, n, mt, c⟩ := by
  induction ds with
  | nil => simp at h
  | cons a as ih =>
    by_cases hk : dstKeyEq a p n = true
    · obtain ⟨h1, h2⟩ := (dstKeyEq_iff a p n).mp hk
      have hk4 : dstKeyEq (⟨p, n, mt, c⟩ : DstFile) p n = true := by
        simp [dstKeyEq]
      simp [lookupDoc, List.find?_cons, hk, h1, h2, hk4]
    · have h2 : as.any (fun g => dstKeyEq g p n) = true := by
        simp only [List.any_cons, Bool.or_eq_true] at h
        rcases h with h | h
        · exact absurd h hk
        · exact h
      have := ih h2
      simp only [lookupDoc] at this ⊢
      simpa [List.find?_cons, hk] using this

lemma lookupDoc_append_new (ds : List DstFile) (p : Path) (n : Str) (mt : Nat)
    (c : Str) (h : ds.any (fun g => dstKeyEq g p n) = false) :
    lookupDoc (ds ++ [⟨p, n, mt, c⟩]) p n = some ⟨p, n, mt, c⟩ := by
  have hnone : List.find? (fun g => dstKeyEq g p n) ds = none := by
    rw [List.find?_eq_none]
    intro x hx hxk
    have hany : ds.any (fun g => dstKeyEq g p n) = true :=
      List.any_eq_true.mpr ⟨x, hx, hxk⟩
    rw [h] at hany
    cases hany
  rw [lookupDoc, List.find?_append, hnone]
  simp [List.find?, dstKeyEq]

lemma lookupDoc_setDoc_self (ds : List DstFile) (p : Path) (n : Str) (mt : Nat)
    (c : Str) :
    lookupDoc (setDoc ds p n mt c) p n = some ⟨p, n, mt, c⟩ := by
  unfold setDoc
  by_cases h : ds.any (fun g => dstKeyEq g p n) = true
  · simpa [h] using lookupDoc_mapSet ds p n mt c h
  · have h2 : ds.any (fun g => dstKeyEq g p n) = false := by
      revert h; cases ds.any (fun g => dstKeyEq g p n) <;> simp
    simpa [h2] using lookupDoc_append_new ds p n mt c h2

lemma lookupDoc_mapSet_other (ds : List DstFile) (p q : Path) (n m : Str)
    (mt : Nat) (c : Str) (h : ¬(p = q ∧ n = m)) :
    lookupDoc (ds.map (fun g => if dstKeyEq g p n then ⟨g.dirs, g.name, mt, c⟩ else g)) q m
      = lookupDoc ds q m := by
  induction ds with
  | nil => rfl
  | cons a as ih =>
    by_cases hk : dstKeyEq a p n = true
    · obtain ⟨h1, h2⟩ := (dstKeyEq_iff a p n).mp hk
      have hk2 : dstKeyEq (⟨a.dirs, a.name, mt, c⟩ : DstFile) q m = dstKeyEq a q m := by
        simp [dstKeyEq]
      have hk3 : dstKeyEq a q m = false := by
        by_cases hqm : dstKeyEq a q m = true
        · obtain ⟨h3, h4⟩ := (dstKeyEq_iff a q m).mp hqm
          exact absurd ⟨h1.symm.trans h3, h2.symm.trans h4⟩ h
        · revert hqm; cases dstKeyEq a q m <;> simp
      simp only [lookupDoc] at ih ⊢
      simp [List.find?_cons, hk, hk2, hk3, ih]
    · simp only [lookupDoc] at ih ⊢
      by_cases hqm : dstKeyEq a q m = true
      · simp [List.find?_cons, hk, hqm]
      · have hqm2 : dstKeyEq a q m = false := by
          revert hqm; cases dstKeyEq a q m <;> simp
        simp [List.find?_cons, hk, hqm2, ih]

lemma lookupDoc_setDoc_other (ds : List DstFile) (p q : Path) (n m : Str)
    (mt : Nat) (c : Str) (h : ¬(p = q ∧ n = m)) :
    lookupDoc (setDoc ds p n mt c) q m = lookupDoc ds q m := by
  unfold setDoc
  split
  · exact lookupDoc_mapSet_other ds p q n m mt c h
  · rw [lookupDoc, List.find?_append]
    have hone : List.find? (fun g => dstKeyEq g q m) [(⟨p, n, mt, c⟩ : DstFile)] = none := by
      have hkey : dstKeyEq (⟨p, n, mt, c⟩ : DstFile) q m = false := by
        by_cases hqm : dstKeyEq (⟨p, n, mt, c⟩ : DstFile) q m = true
        · obtain ⟨h3, h4⟩ := (dstKeyEq_iff _ q m).mp hqm
          exact absurd ⟨h3, h4⟩ h
        · revert hqm; cases dstKeyEq (⟨p, n, mt, c⟩ : DstFile) q m <;> simp
      simp [List.find?, hkey]
    rw [hone, lookupDoc]
    cases List.find? (fun g => dstKeyEq g q m) ds <;> rfl

lemma lookupImg_mapSet (is : List ImgFile) (n : Str) (mt : Nat) (c : Str)
    (h : is.any (fun g => decide (g.name = n)) = true) :
    lookupImg (is.map (fun g => if g.name = n then ⟨g.name, mt, c⟩ else g)) n
      = some ⟨n, mt, c⟩ := by
  induction is with
  | nil => simp at h
  | cons a as ih =>
    by_cases hk : a.name = n
    · simp [lookupImg, List.find?_cons, hk]
    · have h2 : as.any (fun g => decide (g.name = n)) = true := by
        simp only [List.any_cons, Bool.or_eq_true] at h
        rcases h with h | h
        · exact absurd (by simpa using h) hk
        · exact h
      have := ih h2
      simp only [lookupImg] at this ⊢
      simpa [List.find?_cons, hk] using this

lemma lookupImg_setImg_self (is : List ImgFile) (n : Str) (mt : Nat) (c : Str) :
    lookupImg (setImg is n mt c) n = some ⟨n, mt, c⟩ := by
  unfold setImg
  by_cases h : is.any (fun g => decide (g.name = n)) = true
  · simpa [h] using lookupImg_mapSet is n mt c h
  · have h2 : is.any (fun g => decide (g.name = n)) = false := by
      revert h; cases is.any (fun g => decide (g.name = n)) <;> simp
    have hnone : List.find? (fun g => decide (g.name = n)) is = none := by
      rw [List.find?_eq_none]
      intro x hx hxk
      have hany : is.any (fun g => decide (g.name = n)) = true :=
        List.any_eq_true.mpr ⟨x, hx, hxk⟩
      rw [h2] at hany
      cases hany
    rw [h2]
    simp only [Bool.false_eq_true, if_false, lookupImg, List.find?_append, hnone]
    simp [List.find?]

lemma lookupImg_mapSet_other (is : List ImgFile) (n m : Str) (mt : Nat)
    (c : Str) (h : ¬(n = m)) :
    lookupImg (is.map (fun g => if g.name = n then ⟨g.name, mt, c⟩ else g)) m
      = lookupImg is m := by
  induction is with
  | nil => rfl
  | cons a as ih =>
    by_cases hk : a.name = n
    · have hk3 : ¬(a.name = m) := fun hc => h (hk ▸ hc)
      simp only [lookupImg] at ih ⊢
      simp [List.find?_cons, hk, hk3, h, ih]
    · simp only [lookupImg] at ih ⊢
      by_cases hm : a.name = m
      · have hmn : ¬(m = n) := fun hc => hk (hm.trans hc)
        simp [List.find?_cons, hk, hm, hmn]
      · simp [List.find?_cons, hk, hm, ih]

lemma lookupImg_setImg_other (is : List ImgFile) (n m : Str) (mt : Nat)
    (c : Str) (h : ¬(n = m)) :
    lookupImg (setImg is n mt c) m = lookupImg is m := by
  unfold setImg
  split
  · exact lookupImg_mapSet_other is n m mt c h
  · rw [lookupImg, List.find?_append]
    have hone : List.find? (fun g => decide (g.name = m)) [(⟨n, mt, c⟩ : ImgFile)] = none := by
      simp [List.find?, h]
    rw [hone, lookupImg]
    cases List.find? (fun g => decide (g.name = m)) is <;> rfl

/-! ## Claim theorems (part 2) -/

/-- A source tree whose only media file is `IMG.JPG` (the extension filter
lowercases, so it counts as media). -/
def srcC9 : SrcState := ⟨[⟨[], "IMG.JPG".data, 1, []⟩], []⟩

/-- A destination media folder holding a lowercase variant, the exact
name, and a non-media file. -/
def dstC9 : DstState :=
  ⟨[], [], [⟨"img.jpg".data, 1, []⟩, ⟨"IMG.JPG".data, 1, []⟩, ⟨"notes.txt".data, 1, []⟩]⟩

/-- Claim C9: the prune-media phase keeps exactly the destination files
whose full filename (case-sensitively) occurs among the source media
basenames, and deletes every other file regardless of its own extension;
concretely `img.jpg` (case mismatch) and `notes.txt` (not media) are both
deleted while `IMG.JPG` survives. -/
theorem c9_prune_media :
    (∀ (src : SrcState) (st : DstState) (g : ImgFile),
      g ∈ (remove_deleted_images src st).1.imgs ↔
        g ∈ st.imgs ∧ g.name ∈ sourceImages src)
    ∧ remove_deleted_images srcC9 dstC9
        = (⟨[], [], [⟨"IMG.JPG".data, 1, []⟩]⟩,
           [.delImg "img.jpg".data, .delImg "notes.txt".data]) := by
  refine ⟨fun src st g => ?_, by decide⟩
  simp [remove_deleted_images, List.mem_filter, List.any_eq_true]

/-- Claim C3: at each of the three copy sites (document sync, media sync,
asset resolution inside the link rewriter) a copy is performed if and only
if the destination file is absent or the source mtime is strictly greater
than the destination mtime; equal mtimes are never recopied. -/
theorem c3_copy_guard :
    (∀ (env : FailOracle) (now : Nat) (src : SrcState) (st : DstState) (f : SrcFile),
      isMdName f.name = true → env f.dirs f.name = false →
      ((Ev.copyDoc f.dirs f.name) ∈ (sync_markdown_step env now src st f).2 ↔
        (lookupDoc st.docs f.dirs f.name = none ∨
         ∃ g, lookupDoc st.docs f.dirs f.name = some g ∧ g.mtime < f.mtime)))
    ∧ (∀ (st : DstState) (f : SrcFile), isImageName f.name = true →
      ((Ev.copyImg f.name) ∈ (sync_image_step st f).2 ↔
        (lookupImg st.imgs f.name = none ∨
         ∃ g, lookupImg st.imgs f.name = some g ∧ g.mtime < f.mtime)))
    ∧ (∀ (src : SrcState) (dd : Path) (imgs : List ImgFile) (alt ref : Str)
        (f : SrcFile), findSrcFile src dd ref = some f →
      ((Ev.copyImg (baseNameOf ref)) ∈ (imageRepl src dd imgs alt ref).2.2 ↔
        (lookupImg imgs (baseNameOf ref) = none ∨
         ∃ g, lookupImg imgs (baseNameOf ref) = some g ∧ g.mtime < f.mtime))) := by
  refine ⟨fun env now src st f hmd henv => ?_, fun st f himg => ?_,
    fun src dd imgs alt ref f hf => ?_⟩
  · unfold sync_markdown_step
    rcases hl : lookupDoc st.docs f.dirs f.name with _ | g
    · rcases hp : process_markdown_file src now f.dirs f.name
        ⟨setDoc st.docs f.dirs f.name f.mtime f.content,
         addDirs st.docDirs f.dirs, st.imgs⟩ with ⟨st2, evs⟩
      simp [hmd, hl, henv, hp]
    · by_cases hst : f.mtime > g.mtime
      · rcases hp : process_markdown_file src now f.dirs f.name
          ⟨setDoc st.docs f.dirs f.name f.mtime f.content,
           addDirs st.docDirs f.dirs, st.imgs⟩ with ⟨st2, evs⟩
        simp only [hmd, hl, henv, hst, if_true, hp]
        constructor
        · intro _; exact Or.inr ⟨g, rfl, hst⟩
        · intro _; simp
      · have hst2 : (f.mtime > g.mtime) = False := by simp [hst]
        simp only [hmd, hl, hst2, if_true, if_false]
        constructor
        · intro hc; simp at hc
        · rintro (hc | ⟨g2, hg2, hlt⟩)
          · simp at hc
          · injection hg2 with hg2
            exact absurd (hg2 ▸ hlt) hst
  · unfold sync_image_step
    rcases hl : lookupImg st.imgs f.name with _ | g
    · simp [himg, hl]
    · by_cases hst : f.mtime > g.mtime
      · simp only [himg, hl, hst, if_true]
        constructor
        · intro _; exact Or.inr ⟨g, rfl, hst⟩
        · intro _; simp
      · have hst2 : (f.mtime > g.mtime) = False := by simp [hst]
        simp only [himg, hl, hst2, if_true, if_false]
        constructor
        · intro hc; simp at hc
        · rintro (hc | ⟨g2, hg2, hlt⟩)
          · simp at hc
          · injection hg2 with hg2
            exact absurd (hg2 ▸ hlt) hst
  · unfold imageRepl
    rcases hl : lookupImg imgs (baseNameOf ref) with _ | g
    · simp [hf, hl]
    · by_cases hst : f.mtime > g.mtime
      · simp only [hf, hl, hst, if_true]
        constructor
        · intro _; exact Or.inr ⟨g, rfl, hst⟩
        · intro _; simp
      · have hst2 : (f.mtime > g.mtime) = False := by simp [hst]
        simp only [hf, hl, hst2, if_true, if_false]
        constructor
        · intro hc; simp at hc
        · rintro (hc | ⟨g2, hg2, hlt⟩)
          · simp at hc
          · injection hg2 with hg2
            exact absurd (hg2 ▸ hlt) hst

/-- Claim C3 witness: the guard at the document site at a concrete input
(a fresh document is copied; an up-to-date one is not). -/
theorem c3_copy_guard_witness :
    ((Ev.copyDoc [] "a.md".data) ∈
      (sync_markdown_step noFail 10 srcPage emptyDst
        ⟨[], "a.md".data, 5, "hi".data⟩).2 ↔
      (lookupDoc emptyDst.docs [] "a.md".data = none ∨
       ∃ g, lookupDoc emptyDst.docs [] "a.md".data = some g ∧ g.mtime < 5)) :=
  c3_copy_guard.1 noFail 10 srcPage emptyDst ⟨[], "a.md".data, 5, "hi".data⟩
    (by decide) (by decide)

/-- Claim C7: during document sync, the rewrite pipeline
(`process_markdown_file`, which runs the video pass then the link pass) is
invoked on a destination document exactly when that document is a `.md`
file that was absent or stale (fresh copy) and its copy did not raise;
skipped documents and failed copies are never rewritten. -/
theorem c7_rewrite_on_fresh_copy (env : FailOracle) (now : Nat)
    (src : SrcState) (st : DstState) (f : SrcFile) :
    (Ev.procDoc f.dirs f.name) ∈ (sync_markdown_step env now src st f).2 ↔
      (isMdName f.name = true ∧
       (lookupDoc st.docs f.dirs f.name = none ∨
        ∃ g, lookupDoc st.docs f.dirs f.name = some g ∧ g.mtime < f.mtime) ∧
       env f.dirs f.name = false) := by
  unfold sync_markdown_step
  by_cases hmd : isMdName f.name = true
  · rcases hl : lookupDoc st.docs f.dirs f.name with _ | g
    · by_cases henv : env f.dirs f.name = true
      · simp [hmd, hl, henv]
      · have henv2 : env f.dirs f.name = false := by
          revert henv; cases env f.dirs f.name <;> simp
        have hset := lookupDoc_setDoc_self st.docs f.dirs f.name f.mtime f.content
        rcases hsub : image_link_sub src f.dirs
            (convert_youtube_embeds f.content) st.imgs with ⟨nc, imgs1, evs⟩
        by_cases hcc : nc = convert_youtube_embeds f.content <;>
          simp [hmd, hl, henv2, process_markdown_file, hset, hsub, hcc]
    · by_cases hst : f.mtime > g.mtime
      · by_cases henv : env f.dirs f.name = true
        · simp [hmd, hl, henv, hst]
        · have henv2 : env f.dirs f.name = false := by
            revert henv; cases env f.dirs f.name <;> simp
          have hset := lookupDoc_setDoc_self st.docs f.dirs f.name f.mtime f.content
          rcases hsub : image_link_sub src f.dirs
              (convert_youtube_embeds f.content) st.imgs with ⟨nc, imgs1, evs⟩
          by_cases hcc : nc = convert_youtube_embeds f.content <;>
            simp [hmd, hl, henv2, hst, process_markdown_file, hset, hsub, hcc]
      · simp [hmd, hl, hst]
  · have hmd2 : isMdName f.name = false := by
      revert hmd; cases isMdName f.name <;> simp
    simp [hmd2]

/-! ## The result of a fresh synchronisation (claim C1) -/

/-- Source well-formedness: every nonempty prefix of a file's directory
path is itself a directory of the source tree (true of any real `os.walk`
result). -/
def SrcWFb (src : SrcState) : Bool :=
  src.files.all (fun f =>
    (nePrefixes f.dirs).all (fun d => src.dirs.any (fun x => decide (x = d))))

/-- The destination document produced for a freshly copied source
document: `copy2` then `process_markdown_file` leaves either the raw
source content (mtime preserved) or the rewritten text (mtime refreshed to
`now`). -/
def mdOut (src : SrcState) (now : Nat) (f : SrcFile) : DstFile :=
  let cc := convert_youtube_embeds f.content
  let nc := image_link_sub_text src f.dirs cc
  if nc = cc then ⟨f.dirs, f.name, f.mtime, f.content⟩
  else ⟨f.dirs, f.name, now, nc⟩

lemma mdOut_dirs (src : SrcState) (now : Nat) (f : SrcFile) :
    (mdOut src now f).dirs = f.dirs := by
  simp only [mdOut]; split <;> rfl

lemma mdOut_name (src : SrcState) (now : Nat) (f : SrcFile) :
    (mdOut src now f).name = f.name := by
  simp only [mdOut]; split <;> rfl

lemma mdOut_rel (src : SrcState) (now : Nat) (f : SrcFile) :
    (mdOut src now f).rel = f.rel := by
  simp [DstFile.rel, SrcFile.rel, mdOut_dirs, mdOut_name]

lemma mdOut_content (src : SrcState) (now : Nat) (f : SrcFile) :
    (mdOut src now f).content = write_back_content src f.dirs f.content := by
  simp only [mdOut, write_back_content]
  split <;> rfl

lemma imageLinkSubF_fst (src : SrcState) (dd : Path) :
    ∀ (fuel : Nat) (s : Str) (imgs : List ImgFile),
      (imageLinkSubF src dd fuel s imgs).1 = imageLinkSubTextF src dd fuel s := by
  intro fuel
  induction fuel with
  | zero => intro s imgs; rfl
  | succ n ih =>
    intro s imgs
    cases s with
    | nil => rfl
    | cons c cs =>
      simp only [imageLinkSubF, imageLinkSubTextF]
      rcases hm : matchImageLink (c :: cs) with _ | ⟨k, alt, tgt⟩
      · simp [ih]
      · simp only []
        rcases hr : imageRepl src dd imgs alt tgt with ⟨out, imgs1, evs1⟩
        rcases hrec : imageLinkSubF src dd n ((c :: cs).drop (max k 1)) imgs1 with
          ⟨rest, imgs2, evs2⟩
        have hout : out = (imageRepl src dd [] alt tgt).1 := by
          have h1 := imageRepl_text src dd imgs alt tgt
          have h2 := imageRepl_text src dd [] alt tgt
          rw [hr] at h1
          rw [← h2] at h1
          exact h1
        have hrest : rest = imageLinkSubTextF src dd n ((c :: cs).drop (max k 1)) := by
          have := ih ((c :: cs).drop (max k 1)) imgs1
          rw [hrec] at this
          exact this
        simp [hr, hrec, hout, hrest]

/-- The text the image-link pass produces is independent of the media
folder state. -/
lemma image_link_sub_fst (src : SrcState) (dd : Path) (s : Str)
    (imgs : List ImgFile) :
    (image_link_sub src dd s imgs).1 = image_link_sub_text src dd s :=
  imageLinkSubF_fst src dd s.length s imgs

lemma lookup_none_any_false {ds : List DstFile} {p : Path} {n : Str}
    (h : lookupDoc ds p n = none) :
    ds.any (fun g => dstKeyEq g p n) = false := by
  rw [List.any_eq_false]
  intro x hx hxk
  rw [lookupDoc, List.find?_eq_none] at h
  exact h x hx hxk

lemma map_id_of_key_false (ds : List DstFile) (p : Path) (n : Str) (mt : Nat)
    (c : Str) (h : ds.any (fun g => dstKeyEq g p n) = false) :
    ds.map (fun g => if dstKeyEq g p n then ⟨g.dirs, g.name, mt, c⟩ else g) = ds := by
  induction ds with
  | nil => rfl
  | cons a as ih =>
    rw [List.any_eq_false] at h
    have ha : dstKeyEq a p n = false := by
      have := h a (by simp)
      revert this; cases dstKeyEq a p n <;> simp
    have has : as.any (fun g => dstKeyEq g p n) = false := by
      rw [List.any_eq_false]
      intro x hx
      exact h x (by simp [hx])
    simp [ha, ih has]

lemma setDoc_append_key (ds : List DstFile) (e : DstFile) (p : Path) (n : Str)
    (mt : Nat) (c : Str) (hds : ds.any (fun g => dstKeyEq g p n) = false)
    (he : dstKeyEq e p n = true) :
    setDoc (ds ++ [e]) p n mt c = ds ++ [⟨e.dirs, e.name, mt, c⟩] := by
  have hany : (ds ++ [e]).any (fun g => dstKeyEq g p n) = true := by
    rw [List.any_eq_true]
    exact ⟨e, by simp, he⟩
  unfold setDoc
  rw [hany]
  simp only [if_true, List.map_append, map_id_of_key_false ds p n mt c hds]
  simp [he]

/-- A skipped (non-`.md`) walk entry leaves the state unchanged. -/
lemma sync_step_skip (env : FailOracle) (now : Nat) (src : SrcState)
    (st : DstState) (f : SrcFile) (h : isMdName f.name = false) :
    sync_markdown_step env now src st f = (st, []) := by
  unfold sync_markdown_step
  simp [h]

/-- Copying a fresh `.md` file appends its processed image to the document
list. -/
lemma sync_step_fresh_docs (src : SrcState) (now : Nat) (st : DstState)
    (f : SrcFile) (hmd : isMdName f.name = true)
    (habs : lookupDoc st.docs f.dirs f.name = none) :
    (sync_markdown_step noFail now src st f).1.docs = st.docs ++ [mdOut src now f] := by
  have hany := lookup_none_any_false habs
  have hset : setDoc st.docs f.dirs f.name f.mtime f.content
      = st.docs ++ [⟨f.dirs, f.name, f.mtime, f.content⟩] := by
    unfold setDoc
    rw [hany]
    simp
  have hlook : lookupDoc (st.docs ++ [(⟨f.dirs, f.name, f.mtime, f.content⟩ : DstFile)])
      f.dirs f.name = some ⟨f.dirs, f.name, f.mtime, f.content⟩ :=
    lookupDoc_append_new st.docs f.dirs f.name f.mtime f.content hany
  have hfst : (image_link_sub src f.dirs (convert_youtube_embeds f.content) st.imgs).1
      = image_link_sub_text src f.dirs (convert_youtube_embeds f.content) :=
    image_link_sub_fst src f.dirs (convert_youtube_embeds f.content) st.imgs
  unfold sync_markdown_step
  simp only [hmd, if_true, habs, noFail, Bool.false_eq_true, if_false, hset,
    process_markdown_file, hlook, hfst]
  by_cases hcc : image_link_sub_text src f.dirs (convert_youtube_embeds f.content)
      = convert_youtube_embeds f.content
  · have hout : mdOut src now f = ⟨f.dirs, f.name, f.mtime, f.content⟩ := by
      simp only [mdOut]
      rw [if_pos hcc]
    rw [if_pos hcc, hout]
  · have hout : mdOut src now f
        = ⟨f.dirs, f.name, now,
           image_link_sub_text src f.dirs (convert_youtube_embeds f.content)⟩ := by
      simp only [mdOut]
      rw [if_neg hcc]
    have happ := setDoc_append_key st.docs ⟨f.dirs, f.name, f.mtime, f.content⟩
      f.dirs f.name now
      (image_link_sub_text src f.dirs (convert_youtube_embeds f.content)) hany
      (by simp [dstKeyEq])
    rw [if_neg hcc]
    simp only [happ, hout]

/-- The fresh-sync fold: over a walk list whose document keys are all
absent from the destination and pairwise distinct, the document phase
appends exactly the processed images of the `.md` files, in walk order. -/
lemma sync_fold_fresh (src : SrcState) (now : Nat) :
    ∀ (l : List SrcFile) (st : DstState),
      (∀ f ∈ l, isMdName f.name = true → lookupDoc st.docs f.dirs f.name = none) →
      ((l.filter (fun f => isMdName f.name)).map SrcFile.rel).Nodup →
      (foldPhase (sync_markdown_step noFail now src) l st).1.docs
        = st.docs ++ (l.filter (fun f => isMdName f.name)).map (mdOut src now) := by
  intro l
  induction l with
  | nil => intro st _ _; simp [foldPhase]
  | cons f fs ih =>
    intro st habs hnd
    by_cases hmd : isMdName f.name = true
    · rcases hstep : sync_markdown_step noFail now src st f with ⟨st2, evs⟩
      have hdocs : st2.docs = st.docs ++ [mdOut src now f] := by
        have := sync_step_fresh_docs src now st f hmd (habs f (by simp) hmd)
        rw [hstep] at this
        exact this
      have hout_key : dstKeyEq (mdOut src now f) f.dirs f.name = true := by
        simp [dstKeyEq, mdOut_dirs, mdOut_name]
      have habs2 : ∀ f2 ∈ fs, isMdName f2.name = true →
          lookupDoc st2.docs f2.dirs f2.name = none := by
        intro f2 hf2 hmd2
        rw [hdocs, lookupDoc, List.find?_append]
        have h1 : List.find? (fun g => dstKeyEq g f2.dirs f2.name) st.docs = none := by
          have := habs f2 (by simp [hf2]) hmd2
          rw [lookupDoc] at this
          exact this
        have hne : ¬(f.rel = f2.rel) := by
          intro hc
          have hmem : f2.rel ∈ (fs.filter (fun x => isMdName x.name)).map SrcFile.rel :=
            List.mem_map.mpr ⟨f2, List.mem_filter.mpr ⟨hf2, hmd2⟩, rfl⟩
          have hfil : (f :: fs).filter (fun x => isMdName x.name)
              = f :: fs.filter (fun x => isMdName x.name) := by
            simp [List.filter_cons, hmd]
          rw [hfil] at hnd
          simp only [List.map_cons, List.nodup_cons] at hnd
          exact hnd.1 (hc ▸ hmem)
        have h2 : List.find? (fun g => dstKeyEq g f2.dirs f2.name) [mdOut src now f] = none := by
          have hk : dstKeyEq (mdOut src now f) f2.dirs f2.name = false := by
            by_cases hd : dstKeyEq (mdOut src now f) f2.dirs f2.name = true
            · obtain ⟨h3, h4⟩ := (dstKeyEq_iff _ _ _).mp hd
              rw [mdOut_dirs] at h3
              rw [mdOut_name] at h4
              exact absurd (by simp [SrcFile.rel, h3, h4]) hne
            · revert hd; cases dstKeyEq (mdOut src now f) f2.dirs f2.name <;> simp
          simp [List.find?, hk]
        rw [h1, h2]
        rfl
      have hnd2 : ((fs.filter (fun x => isMdName x.name)).map SrcFile.rel).Nodup := by
        have hfil : (f :: fs).filter (fun x => isMdName x.name)
            = f :: fs.filter (fun x => isMdName x.name) := by
          simp [List.filter_cons, hmd]
        rw [hfil] at hnd
        simp only [List.map_cons, List.nodup_cons] at hnd
        exact hnd.2
      have hrec := ih st2 habs2 hnd2
      simp only [foldPhase, hstep]
      rw [hrec, hdocs]
      simp [List.filter_cons, hmd]
    · have hmd2 : isMdName f.name = false := by
        revert hmd; cases isMdName f.name <;> simp
      have hstep := sync_step_skip noFail now src st f hmd2
      have hrec := ih st (fun f2 h2 => habs f2 (by simp [h2])) (by
        have hfil : (f :: fs).filter (fun x => isMdName x.name)
            = fs.filter (fun x => isMdName x.name) := by
          simp [List.filter_cons, hmd2]
        rw [hfil] at hnd
        exact hnd)
      simp only [foldPhase, hstep]
      rw [hrec]
      simp [List.filter_cons, hmd2]

lemma addDirs_mem_inv (p : Path) :
    ∀ (ds : List Path) (d : Path), d ∈ addDirs ds p → d ∈ ds ∨ d ∈ nePrefixes p := by
  unfold addDirs
  generalize nePrefixes p = l
  induction l with
  | nil => intro ds d h; exact Or.inl h
  | cons a as ih =>
    intro ds d h
    simp only [List.foldl_cons] at h
    by_cases hmem : ds.any (fun x => decide (x = a)) = true
    · rw [hmem] at h
      simp only [if_true] at h
      rcases ih ds d h with h2 | h2
      · exact Or.inl h2
      · exact Or.inr (by simp [h2])
    · have hmem2 : ds.any (fun x => decide (x = a)) = false := by
        revert hmem; cases ds.any (fun x => decide (x = a)) <;> simp
      rw [hmem2] at h
      simp only [Bool.false_eq_true, if_false] at h
      rcases ih (ds ++ [a]) d h with h2 | h2
      · rcases List.mem_append.mp h2 with h3 | h3
        · exact Or.inl h3
        · simp only [List.mem_singleton] at h3
          exact Or.inr (by simp [h3])
      · exact Or.inr (by simp [h2])

lemma process_docDirs (src : SrcState) (now : Nat) (dd : Path) (n : Str)
    (st : DstState) :
    (process_markdown_file src now dd n st).1.docDirs = st.docDirs := by
  unfold process_markdown_file
  rcases lookupDoc st.docs dd n with _ | fl
  · rfl
  · simp only []
    split <;> rfl

lemma sync_step_dirs_inv (env : FailOracle) (now : Nat) (src : SrcState)
    (st : DstState) (f : SrcFile) (d : Path)
    (h : d ∈ (sync_markdown_step env now src st f).1.docDirs) :
    d ∈ st.docDirs ∨ d ∈ nePrefixes f.dirs := by
  unfold sync_markdown_step at h
  by_cases hmd : isMdName f.name = true
  · simp only [hmd, if_true] at h
    split at h
    · split at h
      · exact addDirs_mem_inv f.dirs st.docDirs d h
      · rcases hp : process_markdown_file src now f.dirs f.name
          ⟨setDoc st.docs f.dirs f.name f.mtime f.content,
           addDirs st.docDirs f.dirs, st.imgs⟩ with ⟨st2, evs⟩
        rw [hp] at h
        have := process_docDirs src now f.dirs f.name
          ⟨setDoc st.docs f.dirs f.name f.mtime f.content,
           addDirs st.docDirs f.dirs, st.imgs⟩
        rw [hp] at this
        simp only at h
        rw [this] at h
        exact addDirs_mem_inv f.dirs st.docDirs d h
    · exact addDirs_mem_inv f.dirs st.docDirs d h
  · have hmd2 : isMdName f.name = false := by
      revert hmd; cases isMdName f.name <;> simp
    simp only [hmd2, Bool.false_eq_true, if_false] at h
    exact Or.inl h

lemma sync_fold_dirs_inv (env : FailOracle) (now : Nat) (src : SrcState) :
    ∀ (l : List SrcFile) (st : DstState) (d : Path),
      d ∈ (foldPhase (sync_markdown_step env now src) l st).1.docDirs →
      d ∈ st.docDirs ∨ ∃ f ∈ l, d ∈ nePrefixes f.dirs := by
  intro l
  induction l with
  | nil => intro st d h; exact Or.inl h
  | cons f fs ih =>
    intro st d h
    simp only [foldPhase] at h
    rcases hstep : sync_markdown_step env now src st f with ⟨st2, evs⟩
    rw [hstep] at h
    rcases hfold : foldPhase (sync_markdown_step env now src) fs st2 with ⟨st3, evs3⟩
    rw [hfold] at h
    simp only at h
    have h2 := ih st2 d (by rw [hfold]; exact h)
    rcases h2 with h3 | ⟨f2, hf2, h3⟩
    · have h4 := sync_step_dirs_inv env now src st f d (by rw [hstep]; exact h3)
      rcases h4 with h5 | h5
      · exact Or.inl h5
      · exact Or.inr ⟨f, by simp, h5⟩
    · exact Or.inr ⟨f2, by simp [hf2], h3⟩

lemma sync_image_step_frame (st : DstState) (f : SrcFile) :
    (sync_image_step st f).1.docs = st.docs ∧
    (sync_image_step st f).1.docDirs = st.docDirs := by
  unfold sync_image_step
  by_cases h : isImageName f.name = true
  · simp only [h, if_true]
    rcases lookupImg st.imgs f.name with _ | g
    · exact ⟨rfl, rfl⟩
    · simp only []
      split <;> exact ⟨rfl, rfl⟩
  · have h2 : isImageName f.name = false := by
      revert h; cases isImageName f.name <;> simp
    simp [h2]

lemma sync_image_files_frame (src : SrcState) :
    ∀ (l : List SrcFile) (st : DstState),
      (foldPhase sync_image_step l st).1.docs = st.docs ∧
      (foldPhase sync_image_step l st).1.docDirs = st.docDirs := by
  intro l
  induction l with
  | nil => intro st; exact ⟨rfl, rfl⟩
  | cons f fs ih =>
    intro st
    simp only [foldPhase]
    rcases hstep : sync_image_step st f with ⟨st2, evs⟩
    rcases hfold : foldPhase sync_image_step fs st2 with ⟨st3, evs3⟩
    have h1 := sync_image_step_frame st f
    rw [hstep] at h1
    have h2 := ih st2
    rw [hfold] at h2
    simp only
    exact ⟨h2.1.trans h1.1, h2.2.trans h1.2⟩

/-- When every `.md` destination document has a source counterpart and
every destination directory exists in the source, the document prune phase
is the identity and performs no deletion. -/
lemma prune_md_id (src : SrcState) (st : DstState)
    (h1 : ∀ g ∈ st.docs, isMdName g.name = true → sourceExists src g.rel = true)
    (h2 : ∀ d ∈ st.docDirs, ¬(d = []) → sourceExists src d = true) :
    remove_deleted_markdown src st = (st, []) := by
  have horph : ∀ p, orphanUnder src st.docDirs p = false := by
    intro p
    rw [orphanUnder, List.any_eq_false]
    intro a ha
    by_cases hnil : a = []
    · simp [hnil]
    · simp [hnil, h2 a ha hnil]
  have hdel : ∀ g ∈ st.docs,
      (isMdName g.name && !(sourceExists src g.rel)) = false := by
    intro g hg
    by_cases hmd : isMdName g.name = true
    · simp [hmd, h1 g hg hmd]
    · have : isMdName g.name = false := by
        revert hmd; cases isMdName g.name <;> simp
      simp [this]
  have e1 : st.docs.filter (fun g =>
      !(isMdName g.name && !(sourceExists src g.rel)) && !(orphanUnder src st.docDirs g.dirs))
      = st.docs := by
    rw [List.filter_eq_self]
    intro g hg
    simp [hdel g hg, horph]
  have e2 : st.docDirs.filter (fun d => !(orphanUnder src st.docDirs d)) = st.docDirs := by
    rw [List.filter_eq_self]
    intro d _
    simp [horph]
  have e3 : st.docs.filter (fun g => isMdName g.name && !(sourceExists src g.rel)) = [] := by
    rw [List.filter_eq_nil_iff]
    intro g hg
    simp [hdel g hg]
  have e4 : st.docDirs.filter (fun d => !(decide (d = ([] : Path))) && !(sourceExists src d)) = [] := by
    rw [List.filter_eq_nil_iff]
    intro d hd
    by_cases hnil : d = []
    · simp [hnil]
    · simp [hnil, h2 d hd hnil]
  simp only [remove_deleted_markdown]
  rw [e1, e2, e3, e4]
  simp

/-- When every destination media file's name occurs among the source media
basenames, the media prune phase is the identity and performs no
deletion. -/
lemma prune_img_id (src : SrcState) (st : DstState)
    (h : ∀ g ∈ st.imgs, g.name ∈ sourceImages src) :
    remove_deleted_images src st = (st, []) := by
  have hkeep : ∀ g ∈ st.imgs,
      (sourceImages src).any (fun n => decide (n = g.name)) = true := by
    intro g hg
    exact List.any_eq_true.mpr ⟨g.name, h g hg, by simp⟩
  unfold remove_deleted_images
  have e1 : st.imgs.filter (fun g => (sourceImages src).any (fun n => decide (n = g.name)))
      = st.imgs := by
    rw [List.filter_eq_self]
    exact hkeep
  have e2 : st.imgs.filter (fun g => !((sourceImages src).any (fun n => decide (n = g.name))))
      = [] := by
    rw [List.filter_eq_nil_iff]
    intro g hg
    simp [hkeep g hg]
  simp [e1, e2]

lemma full_sync_fst (env : FailOracle) (now : Nat) (src : SrcState) (st : DstState) :
    (full_sync env now src st).1 =
      (remove_deleted_images src
        (remove_deleted_markdown src
          (sync_image_files src (sync_markdown_files env now src st).1).1).1).1 := rfl

lemma remove_deleted_images_frame (src : SrcState) (st : DstState) :
    (remove_deleted_images src st).1.docs = st.docs ∧
    (remove_deleted_images src st).1.docDirs = st.docDirs := by
  unfold remove_deleted_images
  exact ⟨rfl, rfl⟩

/-! ## Invariants for the idempotence of a full run (claim C2) -/

lemma listPre_refl {α : Type} [DecidableEq α] (a : List α) : listPre a a = true := by
  induction a with
  | nil => rfl
  | cons x xs ih => simp [listPre, ih]

lemma listPre_trans {α : Type} [DecidableEq α] :
    ∀ (a b c : List α), listPre a b = true → listPre b c = true → listPre a c = true := by
  intro a
  induction a with
  | nil => intro b c _ _; rfl
  | cons x xs ih =>
    intro b c hab hbc
    cases b with
    | nil => simp [listPre] at hab
    | cons y ys =>
      cases c with
      | nil => simp [listPre] at hbc
      | cons z zs =>
        simp only [listPre, Bool.and_eq_true, decide_eq_true_eq] at hab hbc ⊢
        exact ⟨hab.1.trans hbc.1, ih ys zs hab.2 hbc.2⟩

lemma mem_nePrefixes_pre :
    ∀ (p d : Path), d ∈ nePrefixes p → listPre d p = true ∧ ¬(d = []) := by
  intro p
  induction p with
  | nil => intro d hd; simp [nePrefixes] at hd
  | cons a as ih =>
    intro d hd
    simp only [nePrefixes, List.mem_cons, List.mem_map] at hd
    rcases hd with hd | ⟨q, hq, hdq⟩
    · subst hd
      refine ⟨?_, by simp⟩
      simp [listPre]
    · subst hdq
      obtain ⟨h1, -⟩ := ih q hq
      refine ⟨?_, by simp⟩
      simp only [listPre, Bool.and_eq_true, decide_eq_true_eq]
      exact ⟨by trivial, h1⟩

lemma pre_mem_nePrefixes :
    ∀ (p d : Path), ¬(d = []) → listPre d p = true → d ∈ nePrefixes p := by
  intro p
  induction p with
  | nil =>
    intro d hne hp
    cases d with
    | nil => exact absurd rfl hne
    | cons x xs => simp [listPre] at hp
  | cons a as ih =>
    intro d hne hp
    cases d with
    | nil => exact absurd rfl hne
    | cons x xs =>
      simp only [listPre, Bool.and_eq_true, decide_eq_true_eq] at hp
      obtain ⟨hxa, hxs⟩ := hp
      subst hxa
      cases xs with
      | nil => simp [nePrefixes]
      | cons y ys =>
        have := ih (y :: ys) (by simp) hxs
        simp only [nePrefixes, List.mem_cons, List.mem_map]
        exact Or.inr ⟨y :: ys, this, rfl⟩

/-- Source well-formedness gives existence of every nonempty prefix
directory of a source file. -/
lemma srcWF_exists {src : SrcState} (hwf : SrcWFb src = true) {f : SrcFile}
    (hf : f ∈ src.files) {d : Path} (hd : d ∈ nePrefixes f.dirs) :
    sourceExists src d = true := by
  rw [SrcWFb, List.all_eq_true] at hwf
  have h1 := hwf f hf
  rw [List.all_eq_true] at h1
  have h2 := h1 d hd
  rw [sourceExists]
  simp only [Bool.or_eq_true]
  exact Or.inl (by simpa using h2)

/-- No prefix of a well-formed source file's directory chain is an
orphan. -/
lemma orphanUnder_false_of_wf {src : SrcState} (hwf : SrcWFb src = true)
    {f : SrcFile} (hf : f ∈ src.files) (dirsList : List Path) (q : Path)
    (hq : listPre q f.dirs = true) :
    orphanUnder src dirsList q = false := by
  rw [orphanUnder, List.any_eq_false]
  intro a _
  by_cases hnil : a = []
  · simp [hnil]
  · by_cases hpre : listPre a q = true
    · have hfa : listPre a f.dirs = true := listPre_trans a q f.dirs hpre hq
      have hmem : a ∈ nePrefixes f.dirs := pre_mem_nePrefixes f.dirs a hnil hfa
      simp [srcWF_exists hwf hf hmem]
    · have : listPre a q = false := by
        revert hpre; cases listPre a q <;> simp
      simp [this]

lemma addFold_preserve :
    ∀ (l : List Path) (ds : List Path) (d : Path), d ∈ ds →
      d ∈ l.foldl (fun acc x =>
        if acc.any (fun y => decide (y = x)) then acc else acc ++ [x]) ds := by
  intro l
  induction l with
  | nil => intro ds d h; exact h
  | cons a as ih =>
    intro ds d h
    simp only [List.foldl_cons]
    split
    · exact ih ds d h
    · exact ih (ds ++ [a]) d (by simp [h])

lemma addFold_insert :
    ∀ (l : List Path) (ds : List Path) (d : Path), d ∈ l →
      d ∈ l.foldl (fun acc x =>
        if acc.any (fun y => decide (y = x)) then acc else acc ++ [x]) ds := by
  intro l
  induction l with
  | nil => intro ds d h; simp at h
  | cons a as ih =>
    intro ds d h
    rcases List.mem_cons.mp h with h1 | h1
    · subst h1
      simp only [List.foldl_cons]
      by_cases hin : ds.any (fun y => decide (y = d)) = true
      · rw [hin]
        simp only [if_true]
        refine addFold_preserve as ds d ?_
        obtain ⟨x, hx, hxd⟩ := List.any_eq_true.mp hin
        simp only [decide_eq_true_eq] at hxd
        exact hxd ▸ hx
      · have hin2 : ds.any (fun y => decide (y = d)) = false := by
          revert hin; cases ds.any (fun y => decide (y = d)) <;> simp
        rw [hin2]
        simp only [Bool.false_eq_true, if_false]
        exact addFold_preserve as (ds ++ [d]) d (by simp)
    · simp only [List.foldl_cons]
      split
      · exact ih ds d h1
      · exact ih (ds ++ [a]) d h1

lemma addFold_id :
    ∀ (l : List Path) (ds : List Path), (∀ x ∈ l, x ∈ ds) →
      l.foldl (fun acc x =>
        if acc.any (fun y => decide (y = x)) then acc else acc ++ [x]) ds = ds := by
  intro l
  induction l with
  | nil => intro ds _; rfl
  | cons a as ih =>
    intro ds h
    have hin : ds.any (fun y => decide (y = a)) = true :=
      List.any_eq_true.mpr ⟨a, h a (by simp), by simp⟩
    simp only [List.foldl_cons, hin, if_true]
    exact ih ds (fun x hx => h x (by simp [hx]))

lemma addDirs_grows (ds : List Path) (p : Path) (d : Path) (h : d ∈ ds) :
    d ∈ addDirs ds p :=
  addFold_preserve (nePrefixes p) ds d h

lemma addDirs_mem (ds : List Path) (p : Path) (d : Path) (h : d ∈ nePrefixes p) :
    d ∈ addDirs ds p :=
  addFold_insert (nePrefixes p) ds d h

lemma addDirs_id (ds : List Path) (p : Path) (h : ∀ d ∈ nePrefixes p, d ∈ ds) :
    addDirs ds p = ds :=
  addFold_id (nePrefixes p) ds h

lemma lookupDoc_filter {ds : List DstFile} {pred : DstFile → Bool} {p : Path}
    {n : Str} {g : DstFile} (h : lookupDoc ds p n = some g) (hp : pred g = true) :
    lookupDoc (ds.filter pred) p n = some g := by
  induction ds with
  | nil => simp [lookupDoc] at h
  | cons a as ih =>
    rw [lookupDoc, List.find?_cons] at h
    by_cases hk : dstKeyEq a p n = true
    · simp only [hk] at h
      injection h with h
      subst h
      rw [List.filter_cons, if_pos hp, lookupDoc, List.find?_cons]
      simp [hk]
    · have hk2 : dstKeyEq a p n = false := by
        revert hk; cases dstKeyEq a p n <;> simp
      simp only [hk2] at h
      rw [List.filter_cons]
      by_cases hpa : pred a = true
      · rw [if_pos hpa, lookupDoc, List.find?_cons]
        simp only [hk2]
        exact ih h
      · rw [if_neg hpa]
        exact ih h

lemma lookupImg_filter {is : List ImgFile} {pred : ImgFile → Bool} {n : Str}
    {g : ImgFile} (h : lookupImg is n = some g) (hp : pred g = true) :
    lookupImg (is.filter pred) n = some g := by
  induction is with
  | nil => simp [lookupImg] at h
  | cons a as ih =>
    rw [lookupImg, List.find?_cons] at h
    by_cases hk : (decide (a.name = n)) = true
    · simp only [hk] at h
      injection h with h
      subst h
      rw [List.filter_cons, if_pos hp, lookupImg, List.find?_cons]
      simp [hk]
    · have hk2 : (decide (a.name = n)) = false := by
        revert hk; cases decide (a.name = n) <;> simp
      simp only [hk2] at h
      rw [List.filter_cons]
      by_cases hpa : pred a = true
      · rw [if_pos hpa, lookupImg, List.find?_cons]
        simp only [hk2]
        exact ih h
      · rw [if_neg hpa]
        exact ih h

lemma process_docs_cases (src : SrcState) (now : Nat) (dd : Path) (n : Str)
    (st : DstState) :
    (process_markdown_file src now dd n st).1.docs = st.docs ∨
    ∃ c2, (process_markdown_file src now dd n st).1.docs = setDoc st.docs dd n now c2 := by
  unfold process_markdown_file
  rcases lookupDoc st.docs dd n with _ | fl
  · exact Or.inl rfl
  · simp only []
    split
    · exact Or.inl rfl
    · exact Or.inr ⟨_, rfl⟩

lemma imageRepl_imgs_mono (src : SrcState) (dd : Path) (imgs : List ImgFile)
    (alt ref : Str) (n : Str) (g : ImgFile) (h : lookupImg imgs n = some g) :
    ∃ g2, lookupImg (imageRepl src dd imgs alt ref).2.1 n = some g2 ∧
      g.mtime ≤ g2.mtime := by
  unfold imageRepl
  rcases hf : findSrcFile src dd ref with _ | f
  · exact ⟨g, h, le_refl _⟩
  · simp only []
    rcases hl : lookupImg imgs (baseNameOf ref) with _ | g1
    · simp only [hl]
      by_cases hn : baseNameOf ref = n
      · rw [hn] at hl
        rw [hl] at h
        cases h
      · rw [lookupImg_setImg_other _ _ _ _ _ hn]
        exact ⟨g, h, le_refl _⟩
    · simp only [hl]
      by_cases hst : f.mtime > g1.mtime
      · rw [if_pos hst]
        by_cases hn : baseNameOf ref = n
        · subst hn
          rw [hl] at h
          injection h with h
          subst h
          rw [lookupImg_setImg_self]
          exact ⟨_, rfl, le_of_lt hst⟩
        · rw [lookupImg_setImg_other _ _ _ _ _ hn]
          exact ⟨g, h, le_refl _⟩
      · rw [if_neg hst]
        exact ⟨g, h, le_refl _⟩

lemma imageLinkSubF_imgs_mono (src : SrcState) (dd : Path) :
    ∀ (fuel : Nat) (s : Str) (imgs : List ImgFile) (n : Str) (g : ImgFile),
      lookupImg imgs n = some g →
      ∃ g2, lookupImg (imageLinkSubF src dd fuel s imgs).2.1 n = some g2 ∧
        g.mtime ≤ g2.mtime := by
  intro fuel
  induction fuel with
  | zero => intro s imgs n g h; exact ⟨g, h, le_refl _⟩
  | succ k ih =>
    intro s imgs n g h
    cases s with
    | nil => exact ⟨g, h, le_refl _⟩
    | cons c cs =>
      simp only [imageLinkSubF]
      rcases hm : matchImageLink (c :: cs) with _ | ⟨k2, alt, tgt⟩
      · simp only []
        exact ih cs imgs n g h
      · simp only []
        obtain ⟨g1, h1, hle1⟩ := imageRepl_imgs_mono src dd imgs alt tgt n g h
        obtain ⟨g2, h2, hle2⟩ := ih ((c :: cs).drop (max k2 1)) _ n g1 h1
        exact ⟨g2, h2, hle1.trans hle2⟩

lemma process_imgs_mono (src : SrcState) (now : Nat) (dd : Path) (nm : Str)
    (st : DstState) (n : Str) (g : ImgFile) (h : lookupImg st.imgs n = some g) :
    ∃ g2, lookupImg (process_markdown_file src now dd nm st).1.imgs n = some g2 ∧
      g.mtime ≤ g2.mtime := by
  unfold process_markdown_file
  rcases lookupDoc st.docs dd nm with _ | fl
  · exact ⟨g, h, le_refl _⟩
  · simp only []
    split <;>
      exact imageLinkSubF_imgs_mono src dd
        (convert_youtube_embeds fl.content).length
        (convert_youtube_embeds fl.content) st.imgs n g h

/-- The document list after one `sync_markdown_files` iteration: unchanged,
or the copy, or the copy followed by the rewrite write-back — the latter
two only when the destination entry was absent or stale. -/
lemma sync_step_shape (env : FailOracle) (now : Nat) (src : SrcState)
    (st : DstState) (f : SrcFile) :
    (sync_markdown_step env now src st f).1.docs = st.docs
    ∨ ((∀ g0, lookupDoc st.docs f.dirs f.name = some g0 → g0.mtime < f.mtime) ∧
       ((sync_markdown_step env now src st f).1.docs
           = setDoc st.docs f.dirs f.name f.mtime f.content
        ∨ ∃ c2, (sync_markdown_step env now src st f).1.docs
           = setDoc (setDoc st.docs f.dirs f.name f.mtime f.content)
               f.dirs f.name now c2)) := by
  by_cases hmd : isMdName f.name = true
  · rcases hl : lookupDoc st.docs f.dirs f.name with _ | g0
    · have hvac : ∀ g0 : DstFile, (none : Option DstFile) = some g0 →
          g0.mtime < f.mtime := fun g0 h => by cases h
      by_cases henv : env f.dirs f.name = true
      · refine Or.inl ?_
        unfold sync_markdown_step
        simp [hmd, hl, henv]
      · have henv2 : env f.dirs f.name = false := by
          revert henv; cases env f.dirs f.name <;> simp
        rcases process_docs_cases src now f.dirs f.name
            ⟨setDoc st.docs f.dirs f.name f.mtime f.content,
             addDirs st.docDirs f.dirs, st.imgs⟩ with hc | ⟨c2, hc⟩
        · refine Or.inr ⟨hvac, Or.inl ?_⟩
          unfold sync_markdown_step
          simp [hmd, hl, henv2, hc]
        · refine Or.inr ⟨hvac, Or.inr ⟨c2, ?_⟩⟩
          unfold sync_markdown_step
          simp [hmd, hl, henv2, hc]
    · by_cases hst : f.mtime > g0.mtime
      · have hg : ∀ g1 : DstFile, some g0 = some g1 → g1.mtime < f.mtime := by
          intro g1 hg1
          injection hg1 with hg1
          exact hg1 ▸ hst
        by_cases henv : env f.dirs f.name = true
        · refine Or.inl ?_
          unfold sync_markdown_step
          simp [hmd, hl, hst, henv]
        · have henv2 : env f.dirs f.name = false := by
            revert henv; cases env f.dirs f.name <;> simp
          rcases process_docs_cases src now f.dirs f.name
              ⟨setDoc st.docs f.dirs f.name f.mtime f.content,
               addDirs st.docDirs f.dirs, st.imgs⟩ with hc | ⟨c2, hc⟩
          · refine Or.inr ⟨hg, Or.inl ?_⟩
            unfold sync_markdown_step
            simp [hmd, hl, hst, henv2, hc]
          · refine Or.inr ⟨hg, Or.inr ⟨c2, ?_⟩⟩
            unfold sync_markdown_step
            simp [hmd, hl, hst, henv2, hc]
      · refine Or.inl ?_
        unfold sync_markdown_step
        simp [hmd, hl, hst]
  · refine Or.inl ?_
    have hmd2 : isMdName f.name = false := by
      revert hmd; cases isMdName f.name <;> simp
    unfold sync_markdown_step
    simp [hmd2]

lemma sync_step_docs_mono (env : FailOracle) (now : Nat) (src : SrcState)
    (st : DstState) (f : SrcFile) (hnow : f.mtime ≤ now) (p : Path) (n : Str)
    (g : DstFile) (h : lookupDoc st.docs p n = some g) :
    ∃ g2, lookupDoc (sync_markdown_step env now src st f).1.docs p n = some g2 ∧
      g.mtime ≤ g2.mtime := by
  rcases sync_step_shape env now src st f with hc | ⟨hg0, hc | ⟨c2, hc⟩⟩
  · rw [hc]; exact ⟨g, h, le_refl _⟩
  · by_cases hkey : f.dirs = p ∧ f.name = n
    · obtain ⟨h1, h2⟩ := hkey
      subst h1; subst h2
      rw [hc, lookupDoc_setDoc_self]
      exact ⟨_, rfl, le_of_lt (hg0 g h)⟩
    · rw [hc, lookupDoc_setDoc_other _ _ _ _ _ _ _ hkey]
      exact ⟨g, h, le_refl _⟩
  · by_cases hkey : f.dirs = p ∧ f.name = n
    · obtain ⟨h1, h2⟩ := hkey
      subst h1; subst h2
      rw [hc, lookupDoc_setDoc_self]
      exact ⟨_, rfl, le_trans (le_of_lt (hg0 g h)) hnow⟩
    · rw [hc, lookupDoc_setDoc_other _ _ _ _ _ _ _ hkey,
        lookupDoc_setDoc_other _ _ _ _ _ _ _ hkey]
      exact ⟨g, h, le_refl _⟩

lemma sync_step_docs_self (now : Nat) (src : SrcState) (st : DstState)
    (f : SrcFile) (hmd : isMdName f.name = true) (hnow : f.mtime ≤ now) :
    ∃ g2, lookupDoc (sync_markdown_step noFail now src st f).1.docs
        f.dirs f.name = some g2 ∧ f.mtime ≤ g2.mtime := by
  rcases hl : lookupDoc st.docs f.dirs f.name with _ | g0
  · rcases process_docs_cases src now f.dirs f.name
        ⟨setDoc st.docs f.dirs f.name f.mtime f.content,
         addDirs st.docDirs f.dirs, st.imgs⟩ with hc | ⟨c2, hc⟩
    · have hres : (sync_markdown_step noFail now src st f).1.docs
          = setDoc st.docs f.dirs f.name f.mtime f.content := by
        unfold sync_markdown_step
        simp [hmd, hl, noFail, hc]
      rw [hres, lookupDoc_setDoc_self]
      exact ⟨_, rfl, le_refl _⟩
    · have hres : (sync_markdown_step noFail now src st f).1.docs
          = setDoc (setDoc st.docs f.dirs f.name f.mtime f.content)
              f.dirs f.name now c2 := by
        unfold sync_markdown_step
        simp [hmd, hl, noFail, hc]
      rw [hres, lookupDoc_setDoc_self]
      exact ⟨_, rfl, hnow⟩
  · by_cases hst : f.mtime > g0.mtime
    · rcases process_docs_cases src now f.dirs f.name
          ⟨setDoc st.docs f.dirs f.name f.mtime f.content,
           addDirs st.docDirs f.dirs, st.imgs⟩ with hc | ⟨c2, hc⟩
      · have hres : (sync_markdown_step noFail now src st f).1.docs
            = setDoc st.docs f.dirs f.name f.mtime f.content := by
          unfold sync_markdown_step
          simp [hmd, hl, hst, noFail, hc]
        rw [hres, lookupDoc_setDoc_self]
        exact ⟨_, rfl, le_refl _⟩
      · have hres : (sync_markdown_step noFail now src st f).1.docs
            = setDoc (setDoc st.docs f.dirs f.name f.mtime f.content)
                f.dirs f.name now c2 := by
          unfold sync_markdown_step
          simp [hmd, hl, hst, noFail, hc]
        rw [hres, lookupDoc_setDoc_self]
        exact ⟨_, rfl, hnow⟩
    · have hres : (sync_markdown_step noFail now src st f).1.docs = st.docs := by
        unfold sync_markdown_step
        simp [hmd, hl, hst]
      rw [hres]
      exact ⟨g0, hl, Nat.le_of_not_lt hst⟩

lemma sync_step_dirs_shape (env : FailOracle) (now : Nat) (src : SrcState)
    (st : DstState) (f : SrcFile) :
    (sync_markdown_step env now src st f).1.docDirs = st.docDirs ∨
    (sync_markdown_step env now src st f).1.docDirs = addDirs st.docDirs f.dirs := by
  by_cases hmd : isMdName f.name = true
  · rcases hl : lookupDoc st.docs f.dirs f.name with _ | g0
    · by_cases henv : env f.dirs f.name = true
      · refine Or.inr ?_
        unfold sync_markdown_step
        simp [hmd, hl, henv]
      · have henv2 : env f.dirs f.name = false := by
          revert henv; cases env f.dirs f.name <;> simp
        refine Or.inr ?_
        unfold sync_markdown_step
        simp only [hmd, if_true]
        simp [hl, henv2,
          process_docDirs src now f.dirs f.name
            ⟨setDoc st.docs f.dirs f.name f.mtime f.content,
             addDirs st.docDirs f.dirs, st.imgs⟩]
    · by_cases hst : f.mtime > g0.mtime
      · by_cases henv : env f.dirs f.name = true
        · refine Or.inr ?_
          unfold sync_markdown_step
          simp [hmd, hl, hst, henv]
        · have henv2 : env f.dirs f.name = false := by
            revert henv; cases env f.dirs f.name <;> simp
          refine Or.inr ?_
          unfold sync_markdown_step
          simp [hmd, hl, hst, henv2,
            process_docDirs src now f.dirs f.name
              ⟨setDoc st.docs f.dirs f.name f.mtime f.content,
               addDirs st.docDirs f.dirs, st.imgs⟩]
      · refine Or.inr ?_
        unfold sync_markdown_step
        simp [hmd, hl, hst]
  · refine Or.inl ?_
    have hmd2 : isMdName f.name = false := by
      revert hmd; cases isMdName f.name <;> simp
    unfold sync_markdown_step
    simp [hmd2]

lemma sync_step_dirs_grow (env : FailOracle) (now : Nat) (src : SrcState)
    (st : DstState) (f : SrcFile) (d : Path) (h : d ∈ st.docDirs) :
    d ∈ (sync_markdown_step env now src st f).1.docDirs := by
  rcases sync_step_dirs_shape env now src st f with hc | hc
  · rw [hc]; exact h
  · rw [hc]; exact addDirs_grows st.docDirs f.dirs d h

lemma sync_step_dirs_md (env : FailOracle) (now : Nat) (src : SrcState)
    (st : DstState) (f : SrcFile) (hmd : isMdName f.name = true) :
    (sync_markdown_step env now src st f).1.docDirs = addDirs st.docDirs f.dirs := by
  rcases hl : lookupDoc st.docs f.dirs f.name with _ | g0
  · by_cases henv : env f.dirs f.name = true
    · unfold sync_markdown_step
      simp [hmd, hl, henv]
    · have henv2 : env f.dirs f.name = false := by
        revert henv; cases env f.dirs f.name <;> simp
      unfold sync_markdown_step
      simp [hmd, hl, henv2,
        process_docDirs src now f.dirs f.name
          ⟨setDoc st.docs f.dirs f.name f.mtime f.content,
           addDirs st.docDirs f.dirs, st.imgs⟩]
  · by_cases hst : f.mtime > g0.mtime
    · by_cases henv : env f.dirs f.name = true
      · unfold sync_markdown_step
        simp [hmd, hl, hst, henv]
      · have henv2 : env f.dirs f.name = false := by
          revert henv; cases env f.dirs f.name <;> simp
        unfold sync_markdown_step
        simp [hmd, hl, hst, henv2,
          process_docDirs src now f.dirs f.name
            ⟨setDoc st.docs f.dirs f.name f.mtime f.content,
             addDirs st.docDirs f.dirs, st.imgs⟩]
    · unfold sync_markdown_step
      simp [hmd, hl, hst]

lemma sync_step_dirs_self (env : FailOracle) (now : Nat) (src : SrcState)
    (st : DstState) (f : SrcFile) (hmd : isMdName f.name = true) (d : Path)
    (h : d ∈ nePrefixes f.dirs) :
    d ∈ (sync_markdown_step env now src st f).1.docDirs := by
  rw [sync_step_dirs_md env now src st f hmd]
  exact addDirs_mem st.docDirs f.dirs d h

/-- The imgs component after one `process_markdown_file`: the substitution
result over the same imgs. -/
lemma process_imgs_eq (src : SrcState) (now : Nat) (dd : Path) (n : Str)
    (st : DstState) :
    (process_markdown_file src now dd n st).1.imgs = st.imgs ∨
    ∃ cc, (process_markdown_file src now dd n st).1.imgs
        = (image_link_sub src dd cc st.imgs).2.1 := by
  unfold process_markdown_file
  rcases lookupDoc st.docs dd n with _ | fl
  · exact Or.inl rfl
  · simp only []
    split
    · exact Or.inr ⟨convert_youtube_embeds fl.content, rfl⟩
    · exact Or.inr ⟨convert_youtube_embeds fl.content, rfl⟩

/-- The imgs component after one markdown step: unchanged or the result of
one image-link substitution over it. -/
lemma sync_step_imgs_shape (env : FailOracle) (now : Nat) (src : SrcState)
    (st : DstState) (f : SrcFile) :
    (sync_markdown_step env now src st f).1.imgs = st.imgs ∨
    ∃ cc, (sync_markdown_step env now src st f).1.imgs
        = (image_link_sub src f.dirs cc st.imgs).2.1 := by
  by_cases hmd : isMdName f.name = true
  · rcases hl : lookupDoc st.docs f.dirs f.name with _ | g0
    · by_cases henv : env f.dirs f.name = true
      · refine Or.inl ?_
        unfold sync_markdown_step
        simp [hmd, hl, henv]
      · have henv2 : env f.dirs f.name = false := by
          revert henv; cases env f.dirs f.name <;> simp
        rcases process_imgs_eq src now f.dirs f.name
            ⟨setDoc st.docs f.dirs f.name f.mtime f.content,
             addDirs st.docDirs f.dirs, st.imgs⟩ with hc | ⟨cc, hc⟩
        · refine Or.inl ?_
          unfold sync_markdown_step
          simp [hmd, hl, henv2, hc]
        · refine Or.inr ⟨cc, ?_⟩
          unfold sync_markdown_step
          simp [hmd, hl, henv2, hc]
    · by_cases hst : f.mtime > g0.mtime
      · by_cases henv : env f.dirs f.name = true
        · refine Or.inl ?_
          unfold sync_markdown_step
          simp [hmd, hl, hst, henv]
        · have henv2 : env f.dirs f.name = false := by
            revert henv; cases env f.dirs f.name <;> simp
          rcases process_imgs_eq src now f.dirs f.name
              ⟨setDoc st.docs f.dirs f.name f.mtime f.content,
               addDirs st.docDirs f.dirs, st.imgs⟩ with hc | ⟨cc, hc⟩
          · refine Or.inl ?_
            unfold sync_markdown_step
            simp [hmd, hl, hst, henv2, hc]
          · refine Or.inr ⟨cc, ?_⟩
            unfold sync_markdown_step
            simp [hmd, hl, hst, henv2, hc]
      · refine Or.inl ?_
        unfold sync_markdown_step
        simp [hmd, hl, hst]
  · refine Or.inl ?_
    have hmd2 : isMdName f.name = false := by
      revert hmd; cases isMdName f.name <;> simp
    unfold sync_markdown_step
    simp [hmd2]

lemma sync_step_imgs_mono (env : FailOracle) (now : Nat) (src : SrcState)
    (st : DstState) (f : SrcFile) (n : Str) (g : ImgFile)
    (h : lookupImg st.imgs n = some g) :
    ∃ g2, lookupImg (sync_markdown_step env now src st f).1.imgs n = some g2 ∧
      g.mtime ≤ g2.mtime := by
  rcases sync_step_imgs_shape env now src st f with hc | ⟨cc, hc⟩
  · rw [hc]; exact ⟨g, h, le_refl _⟩
  · rw [hc]
    exact imageLinkSubF_imgs_mono src f.dirs cc.length cc st.imgs n g h

/-! ## Fold-level invariants for the markdown phase -/

lemma sync_fold_docs_mono (env : FailOracle) (now : Nat) (src : SrcState) :
    ∀ (l : List SrcFile) (st : DstState), (∀ f ∈ l, f.mtime ≤ now) →
      ∀ (p : Path) (n : Str) (g : DstFile), lookupDoc st.docs p n = some g →
      ∃ g2, lookupDoc (foldPhase (sync_markdown_step env now src) l st).1.docs p n
          = some g2 ∧ g.mtime ≤ g2.mtime := by
  intro l
  induction l with
  | nil => intro st _ p n g h; exact ⟨g, h, le_refl _⟩
  | cons f fs ih =>
    intro st hm p n g h
    obtain ⟨g1, h1, hle1⟩ :=
      sync_step_docs_mono env now src st f (hm f (by simp)) p n g h
    obtain ⟨g2, h2, hle2⟩ :=
      ih (sync_markdown_step env now src st f).1
        (fun f2 hf2 => hm f2 (by simp [hf2])) p n g1 h1
    exact ⟨g2, by simpa [foldPhase] using h2, hle1.trans hle2⟩

lemma sync_fold_docs_cover (now : Nat) (src : SrcState) :
    ∀ (l : List SrcFile) (st : DstState), (∀ f ∈ l, f.mtime ≤ now) →
      ∀ f ∈ l, isMdName f.name = true →
      ∃ g2, lookupDoc (foldPhase (sync_markdown_step noFail now src) l st).1.docs
          f.dirs f.name = some g2 ∧ f.mtime ≤ g2.mtime := by
  intro l
  induction l with
  | nil => intro st _ f hf; simp at hf
  | cons f0 fs ih =>
    intro st hm f hf hmd
    rcases List.mem_cons.mp hf with h1 | h1
    · subst h1
      obtain ⟨g1, hh1, hle1⟩ := sync_step_docs_self now src st f hmd (hm f (by simp))
      obtain ⟨g2, h2, hle2⟩ :=
        sync_fold_docs_mono noFail now src fs _
          (fun f2 hf2 => hm f2 (by simp [hf2])) f.dirs f.name g1 hh1
      exact ⟨g2, by simpa [foldPhase] using h2, hle1.trans hle2⟩
    · obtain ⟨g2, h2, hle2⟩ :=
        ih (sync_markdown_step noFail now src st f0).1
          (fun f2 hf2 => hm f2 (by simp [hf2])) f h1 hmd
      exact ⟨g2, by simpa [foldPhase] using h2, hle2⟩

lemma sync_fold_dirs_grow (env : FailOracle) (now : Nat) (src : SrcState) :
    ∀ (l : List SrcFile) (st : DstState) (d : Path), d ∈ st.docDirs →
      d ∈ (foldPhase (sync_markdown_step env now src) l st).1.docDirs := by
  intro l
  induction l with
  | nil => intro st d h; exact h
  | cons f fs ih =>
    intro st d h
    have h1 := sync_step_dirs_grow env now src st f d h
    have h2 := ih (sync_markdown_step env now src st f).1 d h1
    simpa [foldPhase] using h2

lemma sync_fold_dirs_cover (env : FailOracle) (now : Nat) (src : SrcState) :
    ∀ (l : List SrcFile) (st : DstState), ∀ f ∈ l, isMdName f.name = true →
      ∀ d ∈ nePrefixes f.dirs,
      d ∈ (foldPhase (sync_markdown_step env now src) l st).1.docDirs := by
  intro l
  induction l with
  | nil => intro st f hf; simp at hf
  | cons f0 fs ih =>
    intro st f hf hmd d hd
    rcases List.mem_cons.mp hf with h1 | h1
    · subst h1
      have h2 := sync_step_dirs_self env now src st f hmd d hd
      have h3 := sync_fold_dirs_grow env now src fs _ d h2
      simpa [foldPhase] using h3
    · have h2 := ih (sync_markdown_step env now src st f0).1 f h1 hmd d hd
      simpa [foldPhase] using h2

lemma sync_fold_imgs_mono (env : FailOracle) (now : Nat) (src : SrcState) :
    ∀ (l : List SrcFile) (st : DstState) (n : Str) (g : ImgFile),
      lookupImg st.imgs n = some g →
      ∃ g2, lookupImg (foldPhase (sync_markdown_step env now src) l st).1.imgs n
          = some g2 ∧ g.mtime ≤ g2.mtime := by
  intro l
  induction l with
  | nil => intro st n g h; exact ⟨g, h, le_refl _⟩
  | cons f fs ih =>
    intro st n g h
    obtain ⟨g1, h1, hle1⟩ := sync_step_imgs_mono env now src st f n g h
    obtain ⟨g2, h2, hle2⟩ :=
      ih (sync_markdown_step env now src st f).1 n g1 h1
    exact ⟨g2, by simpa [foldPhase] using h2, hle1.trans hle2⟩

/-! ## Fold-level invariants for the image phase -/

lemma sync_image_step_imgs_shape (st : DstState) (f : SrcFile) :
    (sync_image_step st f).1.imgs = st.imgs ∨
    ((∀ g1, lookupImg st.imgs f.name = some g1 → g1.mtime < f.mtime) ∧
     (sync_image_step st f).1.imgs = setImg st.imgs f.name f.mtime f.content) := by
  by_cases him : isImageName f.name = true
  · rcases hl : lookupImg st.imgs f.name with _ | g1
    · refine Or.inr ⟨?_, ?_⟩
      · intro g1 hg1
        cases hg1
      · unfold sync_image_step
        simp [him, hl]
    · by_cases hst : f.mtime > g1.mtime
      · refine Or.inr ⟨?_, ?_⟩
        · intro g2 hg2
          injection hg2 with hg2
          exact hg2 ▸ hst
        · unfold sync_image_step
          simp [him, hl, hst]
      · refine Or.inl ?_
        unfold sync_image_step
        simp [him, hl, hst]
  · refine Or.inl ?_
    have him2 : isImageName f.name = false := by
      revert him; cases isImageName f.name <;> simp
    unfold sync_image_step
    simp [him2]

lemma sync_image_step_imgs_mono (st : DstState) (f : SrcFile) (n : Str)
    (g : ImgFile) (h : lookupImg st.imgs n = some g) :
    ∃ g2, lookupImg (sync_image_step st f).1.imgs n = some g2 ∧
      g.mtime ≤ g2.mtime := by
  rcases sync_image_step_imgs_shape st f with hc | ⟨hg1, hc⟩
  · rw [hc]; exact ⟨g, h, le_refl _⟩
  · by_cases hn : f.name = n
    · subst hn
      rw [hc, lookupImg_setImg_self]
      exact ⟨_, rfl, le_of_lt (hg1 g h)⟩
    · rw [hc, lookupImg_setImg_other _ _ _ _ _ hn]
      exact ⟨g, h, le_refl _⟩

lemma sync_image_step_self (st : DstState) (f : SrcFile)
    (him : isImageName f.name = true) :
    ∃ g2, lookupImg (sync_image_step st f).1.imgs f.name = some g2 ∧
      f.mtime ≤ g2.mtime := by
  rcases hl : lookupImg st.imgs f.name with _ | g1
  · have hres : (sync_image_step st f).1.imgs
        = setImg st.imgs f.name f.mtime f.content := by
      unfold sync_image_step
      simp [him, hl]
    rw [hres, lookupImg_setImg_self]
    exact ⟨_, rfl, le_refl _⟩
  · by_cases hst : f.mtime > g1.mtime
    · have hres : (sync_image_step st f).1.imgs
          = setImg st.imgs f.name f.mtime f.content := by
        unfold sync_image_step
        simp [him, hl, hst]
      rw [hres, lookupImg_setImg_self]
      exact ⟨_, rfl, le_refl _⟩
    · have hres : (sync_image_step st f).1.imgs = st.imgs := by
        unfold sync_image_step
        simp [him, hl, hst]
      rw [hres]
      exact ⟨g1, hl, Nat.le_of_not_lt hst⟩

lemma sync_image_fold_mono :
    ∀ (l : List SrcFile) (st : DstState) (n : Str) (g : ImgFile),
      lookupImg st.imgs n = some g →
      ∃ g2, lookupImg (foldPhase sync_image_step l st).1.imgs n = some g2 ∧
        g.mtime ≤ g2.mtime := by
  intro l
  induction l with
  | nil => intro st n g h; exact ⟨g, h, le_refl _⟩
  | cons f fs ih =>
    intro st n g h
    obtain ⟨g1, h1, hle1⟩ := sync_image_step_imgs_mono st f n g h
    obtain ⟨g2, h2, hle2⟩ := ih (sync_image_step st f).1 n g1 h1
    exact ⟨g2, by simpa [foldPhase] using h2, hle1.trans hle2⟩

lemma sync_image_fold_cover :
    ∀ (l : List SrcFile) (st : DstState), ∀ f ∈ l, isImageName f.name = true →
      ∃ g2, lookupImg (foldPhase sync_image_step l st).1.imgs f.name = some g2 ∧
        f.mtime ≤ g2.mtime := by
  intro l
  induction l with
  | nil => intro st f hf; simp at hf
  | cons f0 fs ih =>
    intro st f hf him
    rcases List.mem_cons.mp hf with h1 | h1
    · subst h1
      obtain ⟨g1, hh1, hle1⟩ := sync_image_step_self st f him
      obtain ⟨g2, h2, hle2⟩ := sync_image_fold_mono fs _ f.name g1 hh1
      exact ⟨g2, by simpa [foldPhase] using h2, hle1.trans hle2⟩
    · obtain ⟨g2, h2, hle2⟩ := ih (sync_image_step st f0).1 f h1 him
      exact ⟨g2, by simpa [foldPhase] using h2, hle2⟩

/-! ## No-op lemmas for the second run -/

lemma sync_step_noop (now : Nat) (src : SrcState) (st : DstState) (f : SrcFile)
    (hc : isMdName f.name = true →
      ((∃ g, lookupDoc st.docs f.dirs f.name = some g ∧ f.mtime ≤ g.mtime) ∧
       addDirs st.docDirs f.dirs = st.docDirs)) :
    sync_markdown_step noFail now src st f = (st, []) := by
  by_cases hmd : isMdName f.name = true
  · obtain ⟨⟨g, hl, hle⟩, hdirs⟩ := hc hmd
    have hst : ¬(f.mtime > g.mtime) := Nat.not_lt.mpr hle
    unfold sync_markdown_step
    simp [hmd, hl, hst, hdirs]
  · have hmd2 : isMdName f.name = false := by
      revert hmd; cases isMdName f.name <;> simp
    unfold sync_markdown_step
    simp [hmd2]

lemma sync_fold_noop (now : Nat) (src : SrcState) :
    ∀ (l : List SrcFile) (st : DstState),
      (∀ f ∈ l, isMdName f.name = true →
        ((∃ g, lookupDoc st.docs f.dirs f.name = some g ∧ f.mtime ≤ g.mtime) ∧
         addDirs st.docDirs f.dirs = st.docDirs)) →
      foldPhase (sync_markdown_step noFail now src) l st = (st, []) := by
  intro l
  induction l with
  | nil => intro st _; rfl
  | cons f fs ih =>
    intro st h
    have h1 := sync_step_noop now src st f (h f (by simp))
    have h2 := ih st (fun f2 hf2 => h f2 (by simp [hf2]))
    simp [foldPhase, h1, h2]

lemma sync_image_step_noop (st : DstState) (f : SrcFile)
    (hc : isImageName f.name = true →
      ∃ g, lookupImg st.imgs f.name = some g ∧ f.mtime ≤ g.mtime) :
    sync_image_step st f = (st, []) := by
  by_cases him : isImageName f.name = true
  · obtain ⟨g, hl, hle⟩ := hc him
    have hst : ¬(f.mtime > g.mtime) := Nat.not_lt.mpr hle
    unfold sync_image_step
    simp [him, hl, hst]
  · have him2 : isImageName f.name = false := by
      revert him; cases isImageName f.name <;> simp
    unfold sync_image_step
    simp [him2]

lemma sync_image_fold_noop :
    ∀ (l : List SrcFile) (st : DstState),
      (∀ f ∈ l, isImageName f.name = true →
        ∃ g, lookupImg st.imgs f.name = some g ∧ f.mtime ≤ g.mtime) →
      foldPhase sync_image_step l st = (st, []) := by
  intro l
  induction l with
  | nil => intro st _; rfl
  | cons f fs ih =>
    intro st h
    have h1 := sync_image_step_noop st f (h f (by simp))
    have h2 := ih st (fun f2 hf2 => h f2 (by simp [hf2]))
    simp [foldPhase, h1, h2]

lemma full_sync_snd (env : FailOracle) (now : Nat) (src : SrcState)
    (st : DstState) :
    (full_sync env now src st).2 =
      (sync_markdown_files env now src st).2
      ++ (sync_image_files src (sync_markdown_files env now src st).1).2
      ++ (remove_deleted_markdown src
            (sync_image_files src (sync_markdown_files env now src st).1).1).2
      ++ (remove_deleted_images src
            (remove_deleted_markdown src
              (sync_image_files src (sync_markdown_files env now src st).1).1).1).2 := rfl

/-- A second run over a destination that already covers the source (every
source document and media file present at no older mtime, every directory
chain present) and contains no orphans performs no operation at all. -/
lemma run2_no_events (src : SrcState) (st1 : DstState) (now2 : Nat)
    (hdocs : ∀ f ∈ src.files, isMdName f.name = true →
      ∃ g, lookupDoc st1.docs f.dirs f.name = some g ∧ f.mtime ≤ g.mtime)
    (hdirs : ∀ f ∈ src.files, isMdName f.name = true →
      ∀ d ∈ nePrefixes f.dirs, d ∈ st1.docDirs)
    (himgs : ∀ f ∈ src.files, isImageName f.name = true →
      ∃ g, lookupImg st1.imgs f.name = some g ∧ f.mtime ≤ g.mtime)
    (hsrcdoc : ∀ g ∈ st1.docs, isMdName g.name = true →
      sourceExists src g.rel = true)
    (hsrcdir : ∀ d ∈ st1.docDirs, ¬(d = []) → sourceExists src d = true)
    (hsrcimg : ∀ g ∈ st1.imgs, g.name ∈ sourceImages src) :
    (full_sync noFail now2 src st1).2 = [] := by
  have r1 : sync_markdown_files noFail now2 src st1 = (st1, []) :=
    sync_fold_noop now2 src src.files st1
      (fun f hf hmd => ⟨hdocs f hf hmd,
        addDirs_id st1.docDirs f.dirs (hdirs f hf hmd)⟩)
  have r2 : sync_image_files src st1 = (st1, []) :=
    sync_image_fold_noop src.files st1 (fun f hf him => himgs f hf him)
  have r3 : remove_deleted_markdown src st1 = (st1, []) :=
    prune_md_id src st1 hsrcdoc hsrcdir
  have r4 : remove_deleted_images src st1 = (st1, []) :=
    prune_img_id src st1 hsrcimg
  rw [full_sync_snd, r1]
  simp only [r2, r3, r4]
  rfl

/-- After a full first run, the destination covers the source and holds no
orphan: the six premises of `run2_no_events`. -/
lemma run1_establishes (src : SrcState) (st0 : DstState) (now1 : Nat)
    (hwf : SrcWFb src = true) (hm : ∀ f ∈ src.files, f.mtime ≤ now1) :
    (∀ f ∈ src.files, isMdName f.name = true →
      ∃ g, lookupDoc (full_sync noFail now1 src st0).1.docs f.dirs f.name
          = some g ∧ f.mtime ≤ g.mtime)
    ∧ (∀ f ∈ src.files, isMdName f.name = true →
      ∀ d ∈ nePrefixes f.dirs, d ∈ (full_sync noFail now1 src st0).1.docDirs)
    ∧ (∀ f ∈ src.files, isImageName f.name = true →
      ∃ g, lookupImg (full_sync noFail now1 src st0).1.imgs f.name = some g ∧
        f.mtime ≤ g.mtime)
    ∧ (∀ g ∈ (full_sync noFail now1 src st0).1.docs, isMdName g.name = true →
      sourceExists src g.rel = true)
    ∧ (∀ d ∈ (full_sync noFail now1 src st0).1.docDirs, ¬(d = []) →
      sourceExists src d = true)
    ∧ (∀ g ∈ (full_sync noFail now1 src st0).1.imgs,
      g.name ∈ sourceImages src) := by
  -- intermediate states of the first run
  rcases hA : sync_markdown_files noFail now1 src st0 with ⟨A, eA⟩
  have hA2 : foldPhase (sync_markdown_step noFail now1 src) src.files st0
      = (A, eA) := hA
  rcases hB : sync_image_files src A with ⟨B, eB⟩
  have hB2 : foldPhase sync_image_step src.files A = (B, eB) := hB
  have hBfr := sync_image_files_frame src src.files A
  rw [hB2] at hBfr
  -- facts after the two sync phases
  have FA1 : ∀ f ∈ src.files, isMdName f.name = true →
      ∃ g, lookupDoc A.docs f.dirs f.name = some g ∧ f.mtime ≤ g.mtime := by
    intro f hf hmd
    have := sync_fold_docs_cover now1 src src.files st0 hm f hf hmd
    rw [hA2] at this
    exact this
  have FA2 : ∀ f ∈ src.files, isMdName f.name = true →
      ∀ d ∈ nePrefixes f.dirs, d ∈ A.docDirs := by
    intro f hf hmd d hd
    have := sync_fold_dirs_cover noFail now1 src src.files st0 f hf hmd d hd
    rw [hA2] at this
    exact this
  have FB1 : ∀ f ∈ src.files, isMdName f.name = true →
      ∃ g, lookupDoc B.docs f.dirs f.name = some g ∧ f.mtime ≤ g.mtime := by
    rw [hBfr.1]; exact FA1
  have FB2 : ∀ f ∈ src.files, isMdName f.name = true →
      ∀ d ∈ nePrefixes f.dirs, d ∈ B.docDirs := by
    rw [hBfr.2]; exact FA2
  have FB3 : ∀ f ∈ src.files, isImageName f.name = true →
      ∃ g, lookupImg B.imgs f.name = some g ∧ f.mtime ≤ g.mtime := by
    intro f hf him
    have := sync_image_fold_cover src.files A f hf him
    rw [hB2] at this
    exact this
  -- the prune phases
  have hC : (remove_deleted_markdown src B).1.docs
      = B.docs.filter (fun g =>
          !(isMdName g.name && !(sourceExists src g.rel)) &&
          !(orphanUnder src B.docDirs g.dirs)) := rfl
  have hCdirs : (remove_deleted_markdown src B).1.docDirs
      = B.docDirs.filter (fun d => !(orphanUnder src B.docDirs d)) := rfl
  have hCimgs : (remove_deleted_markdown src B).1.imgs = B.imgs := rfl
  have hDimgs : (remove_deleted_images src (remove_deleted_markdown src B).1).1.imgs
      = (remove_deleted_markdown src B).1.imgs.filter (fun g =>
          (sourceImages src).any (fun n => decide (n = g.name))) := rfl
  have hDfr := remove_deleted_images_frame src (remove_deleted_markdown src B).1
  have hfin : (full_sync noFail now1 src st0).1
      = (remove_deleted_images src (remove_deleted_markdown src B).1).1 := by
    rw [full_sync_fst, hA]
    simp only
    rw [hB]
  rw [hfin]
  refine ⟨?_, ?_, ?_, ?_, ?_, ?_⟩
  · -- documents still covered after the prunes
    intro f hf hmd
    obtain ⟨g, hg, hle⟩ := FB1 f hf hmd
    obtain ⟨hgd, hgn⟩ := lookupDoc_key hg
    have hex : sourceExists src g.rel = true := by
      rw [sourceExists]
      simp only [Bool.or_eq_true]
      refine Or.inr (List.any_eq_true.mpr ⟨f, hf, ?_⟩)
      simp [SrcFile.rel, DstFile.rel, hgd, hgn]
    have horph : orphanUnder src B.docDirs g.dirs = false := by
      rw [hgd]
      exact orphanUnder_false_of_wf hwf hf B.docDirs f.dirs (listPre_refl f.dirs)
    have hpred : (!(isMdName g.name && !(sourceExists src g.rel)) &&
        !(orphanUnder src B.docDirs g.dirs)) = true := by
      simp [hex, horph]
    refine ⟨g, ?_, hle⟩
    rw [hDfr.1, hC]
    exact lookupDoc_filter hg hpred
  · -- directory chains survive the prunes
    intro f hf hmd d hd
    have hdB := FB2 f hf hmd d hd
    have hpre := mem_nePrefixes_pre f.dirs d hd
    have horph : orphanUnder src B.docDirs d = false :=
      orphanUnder_false_of_wf hwf hf B.docDirs d hpre.1
    rw [hDfr.2, hCdirs]
    exact List.mem_filter.mpr ⟨hdB, by simp [horph]⟩
  · -- images still covered
    intro f hf him
    obtain ⟨g, hg, hle⟩ := FB3 f hf him
    have hgn := lookupImg_key hg
    have hmem : f.name ∈ sourceImages src :=
      List.mem_map.mpr ⟨f, List.mem_filter.mpr ⟨hf, him⟩, rfl⟩
    have hkeep : ((sourceImages src).any (fun n => decide (n = g.name))) = true :=
      List.any_eq_true.mpr ⟨f.name, hmem, by simp [hgn]⟩
    refine ⟨g, ?_, hle⟩
    rw [hDimgs, hCimgs]
    exact lookupImg_filter hg hkeep
  · -- every surviving document has a source counterpart
    intro g hg hmd
    rw [hDfr.1, hC] at hg
    obtain ⟨-, hp⟩ := List.mem_filter.mp hg
    simp only [Bool.and_eq_true, Bool.not_eq_true'] at hp
    rcases hp with ⟨hp1, -⟩
    by_cases hex : sourceExists src g.rel = true
    · exact hex
    · exfalso
      have hex2 : sourceExists src g.rel = false := by
        revert hex; cases sourceExists src g.rel <;> simp
      rw [hmd, hex2] at hp1
      simp at hp1
  · -- every surviving directory has a source counterpart
    intro d hd hne
    rw [hDfr.2, hCdirs] at hd
    obtain ⟨hdB, hp⟩ := List.mem_filter.mp hd
    by_cases hex : sourceExists src d = true
    · exact hex
    · exfalso
      have hex2 : sourceExists src d = false := by
        revert hex; cases sourceExists src d <;> simp
      have horph : orphanUnder src B.docDirs d = true := by
        rw [orphanUnder]
        refine List.any_eq_true.mpr ⟨d, hdB, ?_⟩
        simp [hne, hex2, listPre_refl]
      rw [horph] at hp
      simp at hp
  · -- every surviving media file is named in the source
    intro g hg
    rw [hDimgs] at hg
    obtain ⟨-, hp⟩ := List.mem_filter.mp hg
    obtain ⟨n, hn, hq⟩ := List.any_eq_true.mp hp
    simp only [decide_eq_true_eq] at hq
    exact hq ▸ hn

/-! ## A full run from an arbitrary destination (claim C1) -/

/-- A source tree holding one document beside its image asset, plus a
source subdirectory whose name collides with a destination `.md` file. -/
def srcGhost : SrcState :=
  ⟨[⟨[], "post.md".data, 5, "[Page 1](img25.jpg)".data⟩,
    ⟨[], "img25.jpg".data, 3, "JPGDATA".data⟩], [["ghost.md".data]]⟩

/-- A destination holding an orphan document whose relative path names the
source directory of `srcGhost`. -/
def dstGhost : DstState := ⟨[⟨[], "ghost.md".data, 99, "ORPHAN".data⟩], [], []⟩

/-- A source tree whose document is stamped ahead of both run clocks. -/
def srcFuture : SrcState :=
  ⟨[⟨[], "post.md".data, 20, "[Page 1](img25.jpg)".data⟩,
    ⟨[], "img25.jpg".data, 3, "JPGDATA".data⟩], []⟩

lemma lookupDoc_append_elem (ds : List DstFile) (e : DstFile) (p : Path)
    (n : Str) (hds : ds.any (fun g => dstKeyEq g p n) = false)
    (he : dstKeyEq e p n = true) :
    lookupDoc (ds ++ [e]) p n = some e := by
  have hnone : List.find? (fun g => dstKeyEq g p n) ds = none := by
    rw [List.find?_eq_none]
    intro x hx hxk
    have hany : ds.any (fun g => dstKeyEq g p n) = true :=
      List.any_eq_true.mpr ⟨x, hx, hxk⟩
    rw [hds] at hany
    cases hany
  rw [lookupDoc, List.find?_append, hnone]
  simp [List.find?, he]

/-- Fresh copy of a `.md` walk entry: the destination slot afterwards
holds exactly the processed document. -/
lemma sync_step_fresh_lookup (src : SrcState) (now : Nat) (st : DstState)
    (f : SrcFile) (hmd : isMdName f.name = true)
    (habs : lookupDoc st.docs f.dirs f.name = none) :
    lookupDoc (sync_markdown_step noFail now src st f).1.docs f.dirs f.name
      = some (mdOut src now f) := by
  have hdocs := sync_step_fresh_docs src now st f hmd habs
  rw [hdocs]
  exact lookupDoc_append_elem st.docs (mdOut src now f) f.dirs f.name
    (lookup_none_any_false habs)
    (by simp [dstKeyEq, mdOut_dirs, mdOut_name])

/-- A markdown step touches no destination slot other than its own. -/
lemma sync_step_docs_other (now : Nat) (src : SrcState) (st : DstState)
    (f : SrcFile) (p : Path) (n : Str) (hne : ¬(f.dirs = p ∧ f.name = n)) :
    lookupDoc (sync_markdown_step noFail now src st f).1.docs p n
      = lookupDoc st.docs p n := by
  rcases sync_step_shape noFail now src st f with hc | ⟨-, hc | ⟨c2, hc⟩⟩
  · rw [hc]
  · rw [hc, lookupDoc_setDoc_other _ _ _ _ _ _ _ hne]
  · rw [hc, lookupDoc_setDoc_other _ _ _ _ _ _ _ hne,
      lookupDoc_setDoc_other _ _ _ _ _ _ _ hne]

/-- The markdown fold leaves a slot alone when no walk entry keys it. -/
lemma sync_fold_docs_frame (now : Nat) (src : SrcState) :
    ∀ (l : List SrcFile) (st : DstState) (p : Path) (n : Str),
      (∀ f ∈ l, ¬(f.dirs = p ∧ f.name = n)) →
      lookupDoc (foldPhase (sync_markdown_step noFail now src) l st).1.docs p n
        = lookupDoc st.docs p n := by
  intro l
  induction l with
  | nil => intro st p n _; rfl
  | cons f fs ih =>
    intro st p n h
    have hfold : (foldPhase (sync_markdown_step noFail now src) (f :: fs) st).1
        = (foldPhase (sync_markdown_step noFail now src) fs
            (sync_markdown_step noFail now src st f).1).1 := rfl
    rw [hfold, ih (sync_markdown_step noFail now src st f).1 p n
        (fun f2 hf2 => h f2 (by simp [hf2])),
      sync_step_docs_other now src st f p n (h f (by simp))]

/-- A document whose destination slot was empty at the start of the
markdown phase ends the phase holding exactly its processed image. -/
lemma sync_fold_fresh_lookup (src : SrcState) (now : Nat) :
    ∀ (l : List SrcFile) (st : DstState) (f : SrcFile), f ∈ l →
      isMdName f.name = true →
      lookupDoc st.docs f.dirs f.name = none →
      ((l.filter (fun x => isMdName x.name)).map SrcFile.rel).Nodup →
      lookupDoc (foldPhase (sync_markdown_step noFail now src) l st).1.docs
          f.dirs f.name = some (mdOut src now f) := by
  intro l
  induction l with
  | nil => intro st f hf; simp at hf
  | cons f0 fs ih =>
    intro st f hf hmd habs hnd
    have hfold : (foldPhase (sync_markdown_step noFail now src) (f0 :: fs) st).1
        = (foldPhase (sync_markdown_step noFail now src) fs
            (sync_markdown_step noFail now src st f0).1).1 := rfl
    rcases List.mem_cons.mp hf with h1 | h1
    · subst h1
      have hstep := sync_step_fresh_lookup src now st f hmd habs
      have hfil : (f :: fs).filter (fun x => isMdName x.name)
          = f :: fs.filter (fun x => isMdName x.name) := by
        simp [List.filter_cons, hmd]
      rw [hfil] at hnd
      simp only [List.map_cons, List.nodup_cons] at hnd
      have hne : ∀ f2 ∈ fs, ¬(f2.dirs = f.dirs ∧ f2.name = f.name) := by
        intro f2 hf2 hkey
        by_cases hmd2 : isMdName f2.name = true
        · have hmem : f.rel ∈ (fs.filter (fun x => isMdName x.name)).map SrcFile.rel := by
            refine List.mem_map.mpr ⟨f2, List.mem_filter.mpr ⟨hf2, hmd2⟩, ?_⟩
            simp [SrcFile.rel, hkey.1, hkey.2]
          exact hnd.1 hmem
        · rw [hkey.2] at hmd2
          exact hmd2 hmd
      rw [hfold, sync_fold_docs_frame now src fs
          (sync_markdown_step noFail now src st f).1 f.dirs f.name hne]
      exact hstep
    · by_cases hmd0 : isMdName f0.name = true
      · have hfil : (f0 :: fs).filter (fun x => isMdName x.name)
            = f0 :: fs.filter (fun x => isMdName x.name) := by
          simp [List.filter_cons, hmd0]
        rw [hfil] at hnd
        simp only [List.map_cons, List.nodup_cons] at hnd
        have hne0 : ¬(f0.dirs = f.dirs ∧ f0.name = f.name) := by
          intro hkey
          have hmem : f0.rel ∈ (fs.filter (fun x => isMdName x.name)).map SrcFile.rel := by
            refine List.mem_map.mpr ⟨f, List.mem_filter.mpr ⟨h1, hmd⟩, ?_⟩
            simp [SrcFile.rel, hkey.1, hkey.2]
          exact hnd.1 hmem
        have habs2 : lookupDoc (sync_markdown_step noFail now src st f0).1.docs
            f.dirs f.name = none := by
          rw [sync_step_docs_other now src st f0 f.dirs f.name hne0]
          exact habs
        rw [hfold]
        exact ih (sync_markdown_step noFail now src st f0).1 f h1 hmd habs2 hnd.2
      · have hmd0f : isMdName f0.name = false := by
          revert hmd0; cases isMdName f0.name <;> simp
        have hskip := sync_step_skip noFail now src st f0 hmd0f
        have hfil : (f0 :: fs).filter (fun x => isMdName x.name)
            = fs.filter (fun x => isMdName x.name) := by
          simp [List.filter_cons, hmd0f]
        rw [hfil] at hnd
        have habs2 : lookupDoc (sync_markdown_step noFail now src st f0).1.docs
            f.dirs f.name = none := by
          rw [hskip]
          exact habs
        rw [hfold]
        exact ih (sync_markdown_step noFail now src st f0).1 f h1 hmd habs2 hnd

/-- One markdown step keeps every occupied destination slot occupied. -/
lemma sync_step_docs_pres (env : FailOracle) (now : Nat) (src : SrcState)
    (st : DstState) (f : SrcFile) (p : Path) (n : Str) (g : DstFile)
    (h : lookupDoc st.docs p n = some g) :
    ∃ g2, lookupDoc (sync_markdown_step env now src st f).1.docs p n = some g2 := by
  rcases sync_step_shape env now src st f with hc | ⟨-, hc | ⟨c2, hc⟩⟩
  · rw [hc]; exact ⟨g, h⟩
  · by_cases hkey : f.dirs = p ∧ f.name = n
    · obtain ⟨h1, h2⟩ := hkey
      subst h1; subst h2
      rw [hc, lookupDoc_setDoc_self]
      exact ⟨_, rfl⟩
    · rw [hc, lookupDoc_setDoc_other _ _ _ _ _ _ _ hkey]
      exact ⟨g, h⟩
  · by_cases hkey : f.dirs = p ∧ f.name = n
    · obtain ⟨h1, h2⟩ := hkey
      subst h1; subst h2
      rw [hc, lookupDoc_setDoc_self]
      exact ⟨_, rfl⟩
    · rw [hc, lookupDoc_setDoc_other _ _ _ _ _ _ _ hkey,
        lookupDoc_setDoc_other _ _ _ _ _ _ _ hkey]
      exact ⟨g, h⟩

lemma sync_fold_docs_pres (env : FailOracle) (now : Nat) (src : SrcState) :
    ∀ (l : List SrcFile) (st : DstState) (p : Path) (n : Str) (g : DstFile),
      lookupDoc st.docs p n = some g →
      ∃ g2, lookupDoc (foldPhase (sync_markdown_step env now src) l st).1.docs p n
          = some g2 := by
  intro l
  induction l with
  | nil => intro st p n g h; exact ⟨g, h⟩
  | cons f fs ih =>
    intro st p n g h
    obtain ⟨g1, h1⟩ := sync_step_docs_pres env now src st f p n g h
    obtain ⟨g2, h2⟩ := ih (sync_markdown_step env now src st f).1 p n g1 h1
    exact ⟨g2, by simpa [foldPhase] using h2⟩

/-- A `.md` walk entry ends its own markdown step with its destination
slot occupied, whatever the staleness outcome. -/
lemma sync_step_docs_key (now : Nat) (src : SrcState) (st : DstState)
    (f : SrcFile) (hmd : isMdName f.name = true) :
    ∃ g2, lookupDoc (sync_markdown_step noFail now src st f).1.docs
        f.dirs f.name = some g2 := by
  rcases hl : lookupDoc st.docs f.dirs f.name with _ | g0
  · rcases process_docs_cases src now f.dirs f.name
        ⟨setDoc st.docs f.dirs f.name f.mtime f.content,
         addDirs st.docDirs f.dirs, st.imgs⟩ with hc | ⟨c2, hc⟩
    · have hres : (sync_markdown_step noFail now src st f).1.docs
          = setDoc st.docs f.dirs f.name f.mtime f.content := by
        unfold sync_markdown_step
        simp [hmd, hl, noFail, hc]
      rw [hres, lookupDoc_setDoc_self]
      exact ⟨_, rfl⟩
    · have hres : (sync_markdown_step noFail now src st f).1.docs
          = setDoc (setDoc st.docs f.dirs f.name f.mtime f.content)
              f.dirs f.name now c2 := by
        unfold sync_markdown_step
        simp [hmd, hl, noFail, hc]
      rw [hres, lookupDoc_setDoc_self]
      exact ⟨_, rfl⟩
  · by_cases hst : f.mtime > g0.mtime
    · rcases process_docs_cases src now f.dirs f.name
          ⟨setDoc st.docs f.dirs f.name f.mtime f.content,
           addDirs st.docDirs f.dirs, st.imgs⟩ with hc | ⟨c2, hc⟩
      · have hres : (sync_markdown_step noFail now src st f).1.docs
            = setDoc st.docs f.dirs f.name f.mtime f.content := by
          unfold sync_markdown_step
          simp [hmd, hl, hst, noFail, hc]
        rw [hres, lookupDoc_setDoc_self]
        exact ⟨_, rfl⟩
      · have hres : (sync_markdown_step noFail now src st f).1.docs
            = setDoc (setDoc st.docs f.dirs f.name f.mtime f.content)
                f.dirs f.name now c2 := by
          unfold sync_markdown_step
          simp [hmd, hl, hst, noFail, hc]
        rw [hres, lookupDoc_setDoc_self]
        exact ⟨_, rfl⟩
    · have hres : (sync_markdown_step noFail now src st f).1.docs = st.docs := by
        unfold sync_markdown_step
        simp [hmd, hl, hst]
      rw [hres]
      exact ⟨g0, hl⟩

/-- Every `.md` walk entry ends the markdown phase with its destination
slot occupied. -/
lemma sync_fold_docs_cover_key (now : Nat) (src : SrcState) :
    ∀ (l : List SrcFile) (st : DstState), ∀ f ∈ l, isMdName f.name = true →
      ∃ g2, lookupDoc (foldPhase (sync_markdown_step noFail now src) l st).1.docs
          f.dirs f.name = some g2 := by
  intro l
  induction l with
  | nil => intro st f hf; simp at hf
  | cons f0 fs ih =>
    intro st f hf hmd
    rcases List.mem_cons.mp hf with h1 | h1
    · subst h1
      obtain ⟨g1, hh1⟩ := sync_step_docs_key now src st f hmd
      obtain ⟨g2, h2⟩ := sync_fold_docs_pres noFail now src fs _ f.dirs f.name g1 hh1
      exact ⟨g2, by simpa [foldPhase] using h2⟩
    · obtain ⟨g2, h2⟩ := ih (sync_markdown_step noFail now src st f0).1 f h1 hmd
      exact ⟨g2, by simpa [foldPhase] using h2⟩

/-- Claim C1 (amended): after one full run on a walk-closed source with
distinct document paths, from an arbitrary destination state: every source
`.md` file has a destination document at its mirrored relative path; every
surviving destination `.md` document's relative path names a source file
or — the `os.path.exists` collision — a source directory, so an orphan
document whose path names a source directory escapes pruning; and a source
document whose destination slot was empty before the run ends with exactly
its write-back content, which equals the source content only when the
rewrite passes change nothing. -/
theorem c1_full_run_mirror (src : SrcState) (st0 : DstState) (now : Nat)
    (hwf : SrcWFb src = true)
    (hnd : ((src.files.filter (fun f => isMdName f.name)).map SrcFile.rel).Nodup) :
    (∀ f ∈ src.files, isMdName f.name = true →
      ∃ g, lookupDoc (full_sync noFail now src st0).1.docs f.dirs f.name = some g)
    ∧ (∀ g ∈ (full_sync noFail now src st0).1.docs, isMdName g.name = true →
      (∃ f ∈ src.files, f.rel = g.rel) ∨ g.rel ∈ src.dirs)
    ∧ (∀ f ∈ src.files, isMdName f.name = true →
      lookupDoc st0.docs f.dirs f.name = none →
      ∃ g, lookupDoc (full_sync noFail now src st0).1.docs f.dirs f.name = some g
        ∧ g.content = write_back_content src f.dirs f.content) := by
  rcases hA : sync_markdown_files noFail now src st0 with ⟨A, eA⟩
  have hA2 : foldPhase (sync_markdown_step noFail now src) src.files st0 = (A, eA) := hA
  rcases hB : sync_image_files src A with ⟨B, eB⟩
  have hB2 : foldPhase sync_image_step src.files A = (B, eB) := hB
  have hBfr := sync_image_files_frame src src.files A
  rw [hB2] at hBfr
  have hC : (remove_deleted_markdown src B).1.docs
      = B.docs.filter (fun g =>
          !(isMdName g.name && !(sourceExists src g.rel)) &&
          !(orphanUnder src B.docDirs g.dirs)) := rfl
  have hDfr := remove_deleted_images_frame src (remove_deleted_markdown src B).1
  have hfin : (full_sync noFail now src st0).1
      = (remove_deleted_images src (remove_deleted_markdown src B).1).1 := by
    rw [full_sync_fst, hA]
    simp only
    rw [hB]
  refine ⟨?_, ?_, ?_⟩
  · intro f hf hmd
    obtain ⟨g, hg⟩ := sync_fold_docs_cover_key now src src.files st0 f hf hmd
    rw [hA2] at hg
    have hg2 : lookupDoc A.docs f.dirs f.name = some g := hg
    obtain ⟨hgd, hgn⟩ := lookupDoc_key hg2
    have hgB : lookupDoc B.docs f.dirs f.name = some g := by
      rw [hBfr.1]
      exact hg2
    have hex : sourceExists src g.rel = true := by
      rw [sourceExists]
      simp only [Bool.or_eq_true]
      refine Or.inr (List.any_eq_true.mpr ⟨f, hf, ?_⟩)
      simp [SrcFile.rel, DstFile.rel, hgd, hgn]
    have horph : orphanUnder src B.docDirs g.dirs = false := by
      rw [hgd]
      exact orphanUnder_false_of_wf hwf hf B.docDirs f.dirs (listPre_refl f.dirs)
    have hpred : (!(isMdName g.name && !(sourceExists src g.rel)) &&
        !(orphanUnder src B.docDirs g.dirs)) = true := by
      simp [hex, horph]
    refine ⟨g, ?_⟩
    rw [hfin, hDfr.1, hC]
    exact lookupDoc_filter hgB hpred
  · intro g hg hmd
    rw [hfin, hDfr.1, hC] at hg
    obtain ⟨-, hp⟩ := List.mem_filter.mp hg
    simp only [Bool.and_eq_true, Bool.not_eq_true'] at hp
    rcases hp with ⟨hp1, -⟩
    have hex : sourceExists src g.rel = true := by
      by_cases hex0 : sourceExists src g.rel = true
      · exact hex0
      · exfalso
        have hex2 : sourceExists src g.rel = false := by
          revert hex0; cases sourceExists src g.rel <;> simp
        rw [hmd, hex2] at hp1
        simp at hp1
    rw [sourceExists, Bool.or_eq_true] at hex
    rcases hex with hd | hf2
    · obtain ⟨d, hdm, hdq⟩ := List.any_eq_true.mp hd
      simp only [decide_eq_true_eq] at hdq
      exact Or.inr (hdq ▸ hdm)
    · obtain ⟨f2, hfm, hfq⟩ := List.any_eq_true.mp hf2
      simp only [decide_eq_true_eq] at hfq
      exact Or.inl ⟨f2, hfm, hfq⟩
  · intro f hf hmd habs
    have hg := sync_fold_fresh_lookup src now src.files st0 f hf hmd habs hnd
    rw [hA2] at hg
    have hg2 : lookupDoc A.docs f.dirs f.name = some (mdOut src now f) := hg
    have hgB : lookupDoc B.docs f.dirs f.name = some (mdOut src now f) := by
      rw [hBfr.1]
      exact hg2
    have hex : sourceExists src (mdOut src now f).rel = true := by
      rw [mdOut_rel, sourceExists]
      simp only [Bool.or_eq_true]
      exact Or.inr (List.any_eq_true.mpr ⟨f, hf, by simp⟩)
    have horph : orphanUnder src B.docDirs (mdOut src now f).dirs = false := by
      rw [mdOut_dirs]
      exact orphanUnder_false_of_wf hwf hf B.docDirs f.dirs (listPre_refl f.dirs)
    have hpred : (!(isMdName (mdOut src now f).name &&
          !(sourceExists src (mdOut src now f).rel)) &&
        !(orphanUnder src B.docDirs (mdOut src now f).dirs)) = true := by
      simp [hex, horph]
    refine ⟨mdOut src now f, ?_, mdOut_content src now f⟩
    rw [hfin, hDfr.1, hC]
    exact lookupDoc_filter hgB hpred

/-- Claim C1 witness: the amended statement at a concrete source and a
concrete nonempty destination. -/
theorem c1_full_run_mirror_witness :
    ((∀ f ∈ srcGhost.files, isMdName f.name = true →
      ∃ g, lookupDoc (full_sync noFail 10 srcGhost dstGhost).1.docs
          f.dirs f.name = some g)
    ∧ (∀ g ∈ (full_sync noFail 10 srcGhost dstGhost).1.docs,
        isMdName g.name = true →
      (∃ f ∈ srcGhost.files, f.rel = g.rel) ∨ g.rel ∈ srcGhost.dirs)
    ∧ (∀ f ∈ srcGhost.files, isMdName f.name = true →
      lookupDoc dstGhost.docs f.dirs f.name = none →
      ∃ g, lookupDoc (full_sync noFail 10 srcGhost dstGhost).1.docs
          f.dirs f.name = some g
        ∧ g.content = write_back_content srcGhost f.dirs f.content)) :=
  c1_full_run_mirror srcGhost dstGhost 10 (by decide) (by decide)

/-- Claim C1 counterexample: both halves of the claim fail.  Content: on a
one-document source whose document holds an image link, the destination
document's content after a full run is the rewritten text, not the source
content.  Paths: a pre-existing destination `.md` document whose relative
path names a source directory survives the prune phase (`os.path.exists`
accepts the directory), so the destination `.md` path set strictly exceeds
the source's. -/
theorem c1_counterexample :
    ((full_sync noFail 10 srcPage emptyDst).1.docs.map (fun g => g.content)
        = ["[Page 1](/images/img25.jpg)".data]
    ∧ (srcPage.files.map (fun f => f.content)).head?
        = some "[Page 1](img25.jpg)".data
    ∧ ¬("[Page 1](/images/img25.jpg)".data = "[Page 1](img25.jpg)".data))
    ∧ ((full_sync noFail 10 srcGhost dstGhost).1.docs.any
        (fun g => decide (g.rel = ["ghost.md".data])) = true
    ∧ srcGhost.files.all (fun f => !(decide (f.rel = ["ghost.md".data]))) = true
    ∧ ¬((((full_sync noFail 10 srcGhost dstGhost).1.docs.filter
          (fun g => isMdName g.name)).map DstFile.rel)
        = (srcGhost.files.filter (fun f => isMdName f.name)).map SrcFile.rel)) := by
  decide

/-- Claim C2 (amended): once every source mtime is at or before the first
run's clock (and the source tree is walk-closed), a second full
reconciliation run immediately after the first performs no copy and no
delete operation (indeed no operation at all).  Without the mtime bound
the unrestricted claim fails — a future-stamped rewritten document is
re-copied on the second run. -/
theorem c2_second_run_no_ops (src : SrcState) (st0 : DstState)
    (now1 now2 : Nat) (hwf : SrcWFb src = true)
    (hm : ∀ f ∈ src.files, f.mtime ≤ now1) :
    ∀ e ∈ (full_sync noFail now2 src (full_sync noFail now1 src st0).1).2,
      e.isCopy = false ∧ e.isDelete = false := by
  obtain ⟨h1, h2, h3, h4, h5, h6⟩ := run1_establishes src st0 now1 hwf hm
  have hev := run2_no_events src (full_sync noFail now1 src st0).1 now2
    h1 h2 h3 h4 h5 h6
  intro e he
  rw [hev] at he
  cases he

/-- Claim C2 witness: the second run over a concrete one-folder source
performs no copy and no delete. -/
theorem c2_second_run_no_ops_witness :
    ((full_sync noFail 11 srcPage (full_sync noFail 10 srcPage emptyDst).1).2).all
      (fun e => !(e.isCopy) && !(e.isDelete)) = true := by
  have h := c2_second_run_no_ops srcPage emptyDst 10 11 (by decide) (by decide)
  rw [List.all_eq_true]
  intro e he
  obtain ⟨h1, h2⟩ := h e he
  simp [h1, h2]

/-- Claim C2 counterexample: with a source document stamped ahead of both
run clocks, the second run re-copies it — the first run's write-back dated
the destination copy at the first run's clock, which the source mtime
still exceeds — so the claim quantified over every state fails. -/
theorem c2_counterexample :
    ((full_sync noFail 11 srcFuture (full_sync noFail 10 srcFuture emptyDst).1).2).any
      (fun e => e.isCopy) = true := by
  decide

end BlogPipeline
